import Mathlib

/-!
# Verification of lilcom's `int_stream.h` (UintStream / ReverseUintStream)

Shallow embedding of the adaptive-width integer bit-packer from
`src/lilcom/int_stream.h`, together with models of its two external
collaborators that are declared elsewhere in the repository:

* `BitStream` / `ReverseBitStream` (`bit_stream.h`, not in the sources given):
  modelled from the spec, §4.1/§6: an LSB-first bit sink/source.  A bit stream
  is a `List Bool`; `Write(nbits, value)` appends the low `nbits` bits of
  `value` least-significant first; `Flush` pads the final byte with zeros;
  the reverse stream's `Read(nbits, &out)` fails when fewer than `nbits`
  bits remain before the declared end of the byte buffer.
* `int_math::num_bits` (`int_math_utils.h`, not in the sources given):
  modelled from the spec, glossary: `nb(0) = 0`, else `floor(log2 x) + 1`.

Machine integers are modelled as `Nat` (for unsigned) and `Int` (for the
decoder's signed `int` state), with wrap-around made explicit at the points
where the C++ arithmetic can overflow: the `uint32_t num_pending_zeros_`
counter wraps modulo `2^32`, and the decoder's `int num_zeros_in_run` /
`zero_runlength_` computations are reduced by `wrapI` (two's-complement
wrap into `[-2^31, 2^31)`), matching the behaviour of two's-complement
hardware on the `1 << 31` overflow.
-/

namespace Lilcom

/-! ## Bit-level model (spec-modelled `BitStream` / `ReverseBitStream`) -/

/-- The low `n` bits of `v`, least-significant first. -/
def toBits : Nat → Nat → List Bool
  | 0, _ => []
  | n+1, v => decide (v % 2 = 1) :: toBits n (v / 2)

/-- Value of an LSB-first bit string. -/
def bitsVal : List Bool → Nat
  | [] => 0
  | b :: r => (if b then 1 else 0) + 2 * bitsVal r

/-- Read `n` bits LSB-first from the front of a bit stream; fails when fewer
than `n` bits remain (spec §4.1: the bit source's out-of-range guard). -/
def readBits : Nat → List Bool → Option (Nat × List Bool)
  | 0, bs => some (0, bs)
  | _+1, [] => none
  | n+1, b :: bs =>
    (readBits n bs).map (fun p => ((if b then 1 else 0) + 2 * p.1, p.2))

/-- Zero-pad a bit string to a whole number of bytes (`BitStream::Flush`). -/
def padBits (bs : List Bool) : List Bool :=
  bs ++ List.replicate ((8 - bs.length % 8) % 8) false

/-- Structural helper for `bytesOfBits` (the fuel bounds the list length,
keeping the eight-at-a-time recursion structural and kernel-computable). -/
def bytesOfBitsAux : Nat → List Bool → List Nat
  | _, [] => []
  | 0, _ :: _ => []
  | f+1, b :: r => bitsVal ((b :: r).take 8) :: bytesOfBitsAux f ((b :: r).drop 8)

/-- Pack bits (already a multiple of 8) into bytes, LSB-first in each byte. -/
def bytesOfBits (bs : List Bool) : List Nat := bytesOfBitsAux bs.length bs

/-- Unpack a byte buffer into the bit stream the reverse reader consumes. -/
def bitsOfBytes (bytes : List Nat) : List Bool :=
  (bytes.map (toBits 8)).flatten

/-! ## `int_math::num_bits` (spec-modelled, glossary: `nb`) -/

/-- Structural helper for `num_bits`: the first argument is fuel, always
at least the second argument, which makes the halving recursion structural
(and hence kernel-computable). -/
def num_bitsAux : Nat → Nat → Nat
  | _, 0 => 0
  | 0, _+1 => 0
  | f+1, n+1 => num_bitsAux f ((n+1) / 2) + 1

/-- Number of bits: `nb(0) = 0`, else `floor(log2 x) + 1`. -/
def num_bits (n : Nat) : Nat := num_bitsAux n n

/-! ## Encoder: `class UintStream` -/

/-- Ghost record of one `WriteCode` invocation: the three widths passed in and
the value encoded.  Pure instrumentation; it never influences the bits. -/
structure Step where
  prev : Nat
  cur : Nat
  next : Nat
  val : Nat
deriving DecidableEq, Repr

/-- State of `class UintStream`.  `bits` is the contents of the owned
`BitStream`; `trace` is ghost instrumentation recording `WriteCode` calls. -/
structure UintStream where
  buffer : List Nat
  most_recent_num_bits : Nat
  bits : List Bool
  started : Bool
  flushed : Bool
  num_pending_zeros : Nat
  trace : List Step
deriving Repr

/-- Fresh encoder (the C++ constructor). -/
def UintStream.init : UintStream := ⟨[], 0, [], false, false, 0, []⟩

/-- `bit_stream_.Write(n, v)`: append the low `n` bits of `v`, LSB-first. -/
def bsWrite (n v : Nat) (s : UintStream) : UintStream :=
  { s with bits := s.bits ++ toBits n v }

/-- `UintStream::FlushPendingZeros`: write the zero-run code for
`num_pending_zeros_` zeros — `h` zero bits, a one bit, then the run length
minus its top bit in `h` bits, where `h = num_bits(run) - 1`. -/
def FlushPendingZeros (s : UintStream) : UintStream :=
  let k := s.num_pending_zeros
  let h := num_bits k - 1
  let s := bsWrite (h + 1) (2 ^ h) s
  let s := bsWrite h (k % 2 ^ h) s
  { s with num_pending_zeros := 0 }

/-- The forward pass of `UintStream::ComputeNumBits`:
`num_bits[i] = max(num_bits(buffer[i]), num_bits[i-1] - 1)` seeded with
`most_recent_num_bits_` (C++ `int` arithmetic; since all widths are
nonnegative and `max` absorbs the `-1` underflow at `0`, truncated `Nat`
subtraction coincides with it). -/
def numBitsFwd (prev : Nat) : List Nat → List Nat
  | [] => []
  | v :: r =>
    let w := max (num_bits v) (prev - 1)
    w :: numBitsFwd w r

/-- The backward pass of `UintStream::ComputeNumBits`:
`num_bits[i] = max(num_bits[i], num_bits[i+1] - 1)` seeded with `0` past
the end. -/
def numBitsBwd : List Nat → List Nat
  | [] => []
  | w :: r =>
    let r' := numBitsBwd r
    max w (r'.headD 0 - 1) :: r'

/-- `UintStream::ComputeNumBits` on a buffer, given `most_recent_num_bits_`. -/
def ComputeNumBits (mrb : Nat) (buffer : List Nat) : List Nat :=
  numBitsBwd (numBitsFwd mrb buffer)

/-- `UintStream::WriteCode(prev_num_bits, cur_num_bits, next_num_bits, i)`.
A zero-width symbol only bumps the (uint32) pending-zeros counter.  Otherwise
any pending zero run is flushed, the 1- or 2-bit width-delta code for
`next - cur` is written, and the value is written in `cur` bits — or `cur - 1`
bits with its (asserted set) top bit elided when top-bit-redundant. -/
def WriteCode (st : Step) (s : UintStream) : UintStream :=
  let s := { s with trace := s.trace ++ [st] }
  if st.cur = 0 then
    { s with num_pending_zeros := (s.num_pending_zeros + 1) % 2 ^ 32 }
  else
    let s := if s.num_pending_zeros ≠ 0 then FlushPendingZeros s else s
    let s :=
      if st.next = st.cur + 1 then bsWrite 2 3 s
      else if st.next + 1 = st.cur then bsWrite 2 1 s
      else bsWrite 1 0 s
    if st.prev ≤ st.cur ∧ st.next ≤ st.cur ∧ 0 < st.cur then
      bsWrite (st.cur - 1) (st.val ^^^ 2 ^ (st.cur - 1)) s
    else
      bsWrite st.cur st.val s

/-- The per-symbol loop of `UintStream::FlushSome`, presented as the list of
`WriteCode` arguments: symbol `i` is written with `cur = num_bits[i]`,
`next = num_bits[i+1]`, and `prev` chained from the previous iteration. -/
def mkSteps : Nat → List Nat → List Nat → List Step
  | _, [], _ => []
  | _, _ :: _, [] => []
  | prev, v :: vs, c :: ns => ⟨prev, c, ns.headD 0, v⟩ :: mkSteps c vs ns

/-- Run `WriteCode` over a list of steps in order. -/
def writeSteps (l : List Step) (s : UintStream) : UintStream :=
  match l with
  | [] => s
  | st :: r => writeSteps r (WriteCode st s)

/-- The start-of-stream prelude of `UintStream::FlushSome`: the first width in
5 bits (31 and 32 write 31 plus a 1-bit remainder), and
`most_recent_num_bits_` initialised to it. -/
def writePrelude (first : Nat) (s : UintStream) : UintStream :=
  let s := bsWrite 5 (if first = 32 then 31 else first) s
  let s := if 31 ≤ first then bsWrite 1 (first - 31) s else s
  { s with started := true, most_recent_num_bits := first }

/-- `UintStream::FlushSome(num_to_flush)`. -/
def FlushSome (num_to_flush : Nat) (s : UintStream) : UintStream :=
  let size := s.buffer.length
  if size = 0 then s
  else
    let nb0 := ComputeNumBits s.most_recent_num_bits s.buffer
    let nb := if num_to_flush = size then nb0 ++ [nb0.getLastD 0] else nb0
    let s := if s.started then s else writePrelude (nb.headD 0) s
    let s := writeSteps (mkSteps s.most_recent_num_bits (s.buffer.take num_to_flush) nb) s
    { s with
      most_recent_num_bits := nb.getD (num_to_flush - 1) 0,
      buffer := s.buffer.drop num_to_flush }

/-- `UintStream::Write(value)`: buffer the value; when the buffer reaches 64,
flush the first 32. -/
def UintStream.Write (value : Nat) (s : UintStream) : UintStream :=
  let s := { s with buffer := s.buffer ++ [value] }
  if 64 ≤ s.buffer.length then FlushSome 32 s else s

/-- `UintStream::Flush()`: drain the buffer, flush any pending zero run, and
flush exception-free the bit sink (zero-padding to a byte boundary). -/
def UintStream.Flush (s : UintStream) : UintStream :=
  let s := { s with flushed := true }
  let s := FlushSome s.buffer.length s
  let s := if s.num_pending_zeros ≠ 0 then FlushPendingZeros s else s
  { s with bits := padBits s.bits }

/-- `UintStream::Code()`: the byte vector produced by the bit sink. -/
def UintStream.Code (s : UintStream) : List Nat := bytesOfBits s.bits

/-- Write a whole sequence. -/
def writeAll (v : List Nat) (s : UintStream) : UintStream :=
  v.foldl (fun s x => UintStream.Write x s) s

/-- The full encoder pipeline: `Write` each value, then `Flush` once. -/
def encodeAll (v : List Nat) : UintStream :=
  UintStream.Flush (writeAll v UintStream.init)

/-! ## Decoder: `class ReverseUintStream` -/

/-- Two's-complement wrap of an integer into `[-2^31, 2^31)`, the value a
32-bit `int` holds after overflow on two's-complement hardware. -/
def wrapI (z : Int) : Int := (z + 2 ^ 31) % 2 ^ 32 - 2 ^ 31

/-- State of `class ReverseUintStream`: the remaining bits of the byte
buffer, `prev_num_bits_`, `cur_num_bits_` and `zero_runlength_`. -/
structure RUState where
  bits : List Bool
  prev_num_bits : Int
  cur_num_bits : Int
  zero_runlength : Int
deriving Repr, DecidableEq

/-- The `ReverseUintStream` constructor: read the 5-bit prelude, plus one more
bit when it reads 31, and seed `prev = cur` with the result,
`zero_runlength_ = -1`.  (The C++ asserts the reads succeed; we return
`none` in that impossible-for-valid-input case.) -/
def mkRUState (bytes : List Nat) : Option RUState :=
  let bs := bitsOfBytes bytes
  (readBits 5 bs).bind fun p =>
    if 31 ≤ p.1 then
      (readBits 1 p.2).map fun q =>
        ⟨q.2, (p.1 + q.1 : Nat), (p.1 + q.1 : Nat), -1⟩
    else
      some ⟨p.2, (p.1 : Nat), (p.1 : Nat), -1⟩

/-- The unary scan in `ReverseUintStream::Read`: count zero bits up to the
terminating one bit.  Each iteration first reads a bit (failing on a
truncated stream), then fails if more than 31 zeros have been counted. -/
def readUnary (bs : List Bool) (acc : Nat) : Option (Nat × List Bool) :=
  match bs with
  | [] => none
  | b :: r =>
    if 31 < acc then none
    else if b then some (acc, r) else readUnary r (acc + 1)

/-- `ReverseUintStream::Read`.  Returns `none` exactly when the C++ returns
`false`.  Note: the C++ ignores the success flag of the `h`-bit field read
inside the zero-run branch (`bit_reader_.Read(num_zeros_read, &x)`); on
failure we model `x` as 0 with no bits consumed, mirroring that the value
read is unchecked. -/
def RUState.Read (d : RUState) : Option (Nat × RUState) :=
  let step : Int → Int → List Bool → Option (Nat × RUState) :=
    fun nxt zrl bs =>
      let tbr := d.prev_num_bits ≤ d.cur_num_bits ∧ nxt ≤ d.cur_num_bits ∧
        0 < d.cur_num_bits
      if tbr then
        (readBits (d.cur_num_bits - 1).toNat bs).map fun p =>
          (p.1 ||| 2 ^ (d.cur_num_bits - 1).toNat, ⟨p.2, d.cur_num_bits, nxt, zrl⟩)
      else
        (readBits d.cur_num_bits.toNat bs).map fun p =>
          (p.1, ⟨p.2, d.cur_num_bits, nxt, zrl⟩)
  if d.cur_num_bits ≠ 0 then
    (readBits 1 d.bits).bind fun p =>
      if p.1 = 0 then
        step d.cur_num_bits d.zero_runlength p.2
      else
        (readBits 1 p.2).bind fun q =>
          if q.1 ≠ 0 then
            if 32 < d.cur_num_bits + 1 then none
            else step (d.cur_num_bits + 1) d.zero_runlength q.2
          else
            if d.cur_num_bits - 1 < 0 then none
            else step (d.cur_num_bits - 1) d.zero_runlength q.2
  else
    if 0 ≤ d.zero_runlength then
      step (if d.zero_runlength = 0 then 1 else 0) (d.zero_runlength - 1) d.bits
    else
      (readUnary d.bits 0).bind fun u =>
        let h := u.1
        let xr := (readBits h u.2).getD (0, u.2)
        let num_zeros_in_run : Int := wrapI ((2 ^ h : Nat) + xr.1)
        let zrl : Int := wrapI (num_zeros_in_run - 2)
        step (if num_zeros_in_run = 1 then 1 else 0) zrl xr.2

/-- Iterate `Read` `n` times, collecting the decoded values. -/
def readMany : Nat → RUState → Option (List Nat × RUState)
  | 0, d => some ([], d)
  | n+1, d =>
    d.Read.bind fun p => (readMany n p.2).map fun q => (p.1 :: q.1, q.2)

/-! ## Signed wrappers: `IntStream` / `ReverseIntStream` -/

/-- The zig-zag map applied by `IntStream::Write`
(`value >= 0 ? 2*value : -(2*value) - 1`), computed — as the C++ does on
two's-complement hardware, where the result is passed as `uint32_t` — with
wrap-around modulo `2^32`. -/
def zigzag (s : Int) : Nat :=
  ((if 0 ≤ s then 2 * s else -(2 * s) - 1) % (2 ^ 32 : Nat)).toNat

/-- The inverse map applied by `ReverseIntStream::Read`
(`i % 2 == 0 ? i/2 : -(i/2) - 1`). -/
def unzigzag (u : Nat) : Int :=
  if u % 2 = 0 then (u / 2 : Nat) else -((u / 2 : Nat) : Int) - 1

/-- `IntStream::Write`. -/
def IntStream.Write (value : Int) (s : UintStream) : UintStream :=
  UintStream.Write (zigzag value) s

/-- `ReverseIntStream::Read`. -/
def ReverseIntStream.Read (d : RUState) : Option (Int × RUState) :=
  d.Read.map fun p => (unzigzag p.1, p.2)

/-- Full signed pipeline: encode a signed sequence with `IntStream`. -/
def encodeAllSigned (v : List Int) : UintStream := encodeAll (v.map zigzag)

/-- Iterate `ReverseIntStream::Read` `n` times. -/
def readManySigned (n : Nat) (d : RUState) : Option (List Int × RUState) :=
  (readMany n d).map fun p => (p.1.map unzigzag, p.2)

/-! ## Derived forms used by the statements and proofs

The remaining definitions are not read from the source; they name the byte-
and bit-level patterns the source produces, so that the theorems can speak
about them. -/

/-- The bits `FlushPendingZeros` emits for a pending count `k`. -/
def zrunCode (k : Nat) : List Bool :=
  toBits (num_bits k - 1 + 1) (2 ^ (num_bits k - 1)) ++
    toBits (num_bits k - 1) (k % 2 ^ (num_bits k - 1))

/-- The bits `WriteCode` emits for one nonzero-width symbol (width-delta code
followed by the value field), excluding any pending zero-run flush. -/
def stepCode (st : Step) : List Bool :=
  (if st.next = st.cur + 1 then toBits 2 3
   else if st.next + 1 = st.cur then toBits 2 1
   else toBits 1 0) ++
  (if st.prev ≤ st.cur ∧ st.next ≤ st.cur ∧ 0 < st.cur then
     toBits (st.cur - 1) (st.val ^^^ 2 ^ (st.cur - 1))
   else toBits st.cur st.val)

/-- Normal form of the bits emitted by a run of `WriteCode` calls that starts
with `p` zeros already pending: zero-width steps accumulate, and each
nonzero-width step first flushes the accumulated run. -/
def NFenc : Nat → List Step → List Bool
  | _, [] => []
  | p, st :: r =>
    if st.cur = 0 then NFenc ((p + 1) % 2 ^ 32) r
    else (if p ≠ 0 then zrunCode p else []) ++ stepCode st ++ NFenc 0 r

/-- The pending-zeros counter after a run of `WriteCode` calls. -/
def trailingP : Nat → List Step → Nat
  | p, [] => p
  | p, st :: r =>
    if st.cur = 0 then trailingP ((p + 1) % 2 ^ 32) r else trailingP 0 r

/-- The complete post-prelude bit stream for a step sequence: the normal form
plus the final pending-run flush performed by `Flush`. -/
def NFfull (steps : List Step) : List Bool :=
  NFenc 0 steps ++
    (if trailingP 0 steps ≠ 0 then zrunCode (trailingP 0 steps) else [])

/-- The start-of-stream prelude bits for a first width `w0`. -/
def preludeBits (w0 : Nat) : List Bool :=
  toBits 5 (if w0 = 32 then 31 else w0) ++
    (if 31 ≤ w0 then toBits 1 (w0 - 31) else [])

/-- The width sequence the planner assigns to a whole stream (the seed
`most_recent_num_bits_` is 0 before the first flush). -/
def planW (v : List Nat) : List Nat := ComputeNumBits 0 v

/-- The planned widths with the end-of-stream ghost `w[N] = w[N-1]` appended
(the `num_bits.push_back(num_bits.back())` of `FlushSome`). -/
def ghostW (v : List Nat) : List Nat := planW v ++ [(planW v).getLastD 0]

/-- The canonical `WriteCode` argument sequence for a whole stream: widths
from the planner, boundary ghosts `w[-1] = w[0]` and `w[N] = w[N-1]`. -/
def cstepsOf (v : List Nat) : List Step :=
  mkSteps ((planW v).headD 0) v (ghostW v)

/-- `maxChain f = max_j (f[j] - j)`, the head of the backward pass over `f`. -/
def maxChain : List Nat → Nat
  | [] => 0
  | x :: r => max x (maxChain r - 1)

/-- How many symbols the encoder has drained after `n` calls to `Write`
(32 symbols per flush, triggered each time the buffer reaches 64). -/
def flushedCount (n : Nat) : Nat := if n < 64 then 0 else 32 * ((n - 64) / 32 + 1)

/-- The encoder state after `Write`-ing the values `v` onto a fresh stream. -/
def stateSpec (v : List Nat) : UintStream :=
  if v.length < 64 then ⟨v, 0, [], false, false, 0, []⟩
  else
    let k := flushedCount v.length
    let W := planW v
    let steps := mkSteps (W.headD 0) (v.take k) W
    ⟨v.drop k, W.getD (k - 1) 0, preludeBits (W.headD 0) ++ NFenc 0 steps,
     true, false, trailingP 0 steps, steps⟩

/-- Per-step facts the decoder relies on: widths in `[0, 32]`, slope at most
one between `cur` and `next`, the value fits in `cur` bits, and under the
top-bit-redundant condition the value has exactly `cur` bits. -/
def stepOk (st : Step) : Prop :=
  st.cur ≤ 32 ∧ st.next ≤ 32 ∧ st.next ≤ st.cur + 1 ∧ st.cur ≤ st.next + 1 ∧
  num_bits st.val ≤ st.cur ∧
  ((st.prev ≤ st.cur ∧ st.next ≤ st.cur ∧ 0 < st.cur) → num_bits st.val = st.cur)

/-- A well-formed step sequence: each step is `stepOk` and consecutive steps
chain (`next` of one is `cur` of the next, whose `prev` is the former's
`cur`). -/
def chainOk : List Step → Prop
  | [] => True
  | [st] => stepOk st
  | st :: st' :: r => stepOk st ∧ st.next = st'.cur ∧ st'.prev = st.cur ∧
      chainOk (st' :: r)

/-- Every contiguous all-zero segment of `w` is shorter than `B`. -/
def SegBound (B : Nat) (w : List Nat) : Prop :=
  ∀ a (m : Nat) b, w = a ++ List.replicate m 0 ++ b → m < B

/-- Feasibility of a width sequence `w` for values `v` under seed `mrb`
(§3 rules 1–2 plus the seed constraint `w[0] ≥ mrb - 1`). -/
def WidthsOk (mrb : Nat) (v w : List Nat) : Prop :=
  w.length = v.length ∧
  (∀ i, i < v.length → num_bits (v.getD i 0) ≤ w.getD i 0) ∧
  (∀ i, i + 1 < v.length →
    w.getD (i + 1) 0 ≤ w.getD i 0 + 1 ∧ w.getD i 0 ≤ w.getD (i + 1) 0 + 1) ∧
  (v ≠ [] → mrb ≤ w.getD 0 0 + 1)


/-- The `prev` width of the first step of a list, as the decoder holds it in
`prev_num_bits_` when about to decode that step (0 for the empty list). -/
def hdPrev : List Step → Int
  | [] => 0
  | st :: _ => (st.prev : Int)

/-- The `cur` width of the first step of a list, as the decoder holds it in
`cur_num_bits_` when about to decode that step (0 for the empty list). -/
def hdCur : List Step → Int
  | [] => 0
  | st :: _ => (st.cur : Int)

/-! # Theorems -/

/-! ## Bit-string lemmas -/

@[simp] theorem toBits_length (n v : Nat) : (toBits n v).length = n := by
  induction n generalizing v with
  | zero => rfl
  | succ n ih => simp [toBits, ih]

@[simp] theorem bitsVal_toBits (n v : Nat) : bitsVal (toBits n v) = v % 2 ^ n := by
  induction n generalizing v with
  | zero => simp [toBits, bitsVal, Nat.mod_one]
  | succ n ih =>
    have h2 : v % 2 ^ (n+1) = v % 2 + 2 * (v / 2 % 2 ^ n) := by
      rw [pow_succ, mul_comm, Nat.mod_mul]
    simp only [toBits, bitsVal, ih, h2]
    rcases Nat.mod_two_eq_zero_or_one v with h | h <;> simp [h]

theorem bitsVal_lt (bs : List Bool) : bitsVal bs < 2 ^ bs.length := by
  induction bs with
  | nil => simp [bitsVal]
  | cons b r ih =>
    simp only [bitsVal, List.length_cons, pow_succ]
    cases b <;> simp <;> omega

theorem toBits_bitsVal (bs : List Bool) : toBits bs.length (bitsVal bs) = bs := by
  induction bs with
  | nil => rfl
  | cons b r ih =>
    simp only [List.length_cons, toBits, bitsVal, List.cons.injEq]
    constructor
    · cases b <;> simp <;> omega
    · have : ((if b then 1 else 0) + 2 * bitsVal r) / 2 = bitsVal r := by
        cases b <;> simp <;> omega
      rw [this, ih]

theorem toBits_mod (n v : Nat) : toBits n (v % 2 ^ n) = toBits n v := by
  induction n generalizing v with
  | zero => rfl
  | succ n ih =>
    have h1 : v % 2 ^ (n+1) % 2 = v % 2 := Nat.mod_mod_of_dvd _ ⟨2 ^ n, by ring⟩
    have h2 : v % 2 ^ (n+1) / 2 = v / 2 % 2 ^ n := by
      rw [pow_succ, Nat.mod_mul_left_div_self]
    simp only [toBits, h1, h2, ih]

theorem readBits_append (xs r : List Bool) :
    readBits xs.length (xs ++ r) = some (bitsVal xs, r) := by
  induction xs with
  | nil => rfl
  | cons b bs ih => simp [readBits, bitsVal, ih]

theorem readBits_none_iff (n : Nat) (bs : List Bool) :
    readBits n bs = none ↔ bs.length < n := by
  induction n generalizing bs with
  | zero => simp [readBits]
  | succ n ih =>
    cases bs with
    | nil => simp [readBits]
    | cons b r => simpa [readBits, Option.map_eq_none] using ih r

theorem readBits_toBits (n v : Nat) (r : List Bool) :
    readBits n (toBits n v ++ r) = some (v % 2 ^ n, r) := by
  have h := readBits_append (toBits n v) r
  rwa [toBits_length, bitsVal_toBits] at h

/-! ## `num_bits` characterization -/

theorem num_bitsAux_fuel (f : Nat) : ∀ g n, n ≤ f → n ≤ g →
    num_bitsAux f n = num_bitsAux g n := by
  induction f with
  | zero =>
    intro g n hf hg
    have : n = 0 := by omega
    subst this
    cases g <;> rfl
  | succ f ih =>
    intro g n hf hg
    cases n with
    | zero => cases g <;> rfl
    | succ m =>
      cases g with
      | zero => omega
      | succ g =>
        show num_bitsAux f ((m+1) / 2) + 1 = num_bitsAux g ((m+1) / 2) + 1
        rw [ih g ((m+1) / 2) (by omega) (by omega)]

theorem num_bits_eq (n : Nat) :
    num_bits n = if n = 0 then 0 else num_bits (n / 2) + 1 := by
  cases n with
  | zero => rfl
  | succ m =>
    rw [if_neg (Nat.succ_ne_zero m)]
    show num_bitsAux m ((m+1) / 2) + 1 = num_bitsAux ((m+1)/2) ((m+1)/2) + 1
    rw [num_bitsAux_fuel m ((m+1)/2) ((m+1)/2) (by omega) le_rfl]

theorem num_bits_le_iff (k n : Nat) : num_bits n ≤ k ↔ n < 2 ^ k := by
  induction k generalizing n with
  | zero =>
    cases n with
    | zero => simp [num_bits, num_bitsAux]
    | succ m => simp [num_bits, num_bitsAux]
  | succ k ih =>
    cases n with
    | zero => simp [num_bits, num_bitsAux]
    | succ m =>
      rw [num_bits_eq, if_neg (Nat.succ_ne_zero m), Nat.succ_le_succ_iff, ih]
      have h2 : 2 ^ (k+1) = 2 ^ k * 2 := pow_succ 2 k
      omega

theorem num_bits_zero : num_bits 0 = 0 := rfl

theorem num_bits_eq_zero_iff (n : Nat) : num_bits n = 0 ↔ n = 0 := by
  have := num_bits_le_iff 0 n
  simp only [Nat.le_zero] at this
  omega

theorem lt_two_pow_num_bits (n : Nat) : n < 2 ^ num_bits n :=
  (num_bits_le_iff _ n).1 le_rfl

theorem two_pow_le_of_num_bits (n : Nat) (h : n ≠ 0) :
    2 ^ (num_bits n - 1) ≤ n := by
  by_contra hc
  push_neg at hc
  have h1 := (num_bits_le_iff (num_bits n - 1) n).2 hc
  have h2 : num_bits n ≠ 0 := by
    simpa [num_bits_eq_zero_iff] using h
  omega

theorem num_bits_le_32 (n : Nat) (h : n < 2 ^ 32) : num_bits n ≤ 32 :=
  (num_bits_le_iff 32 n).2 h

/-- The value `k ≥ 1` decomposes as its top bit plus its remainder:
`k = 2^(nb k - 1) + k % 2^(nb k - 1)`. -/
theorem num_bits_split (k : Nat) (h : k ≠ 0) :
    2 ^ (num_bits k - 1) + k % 2 ^ (num_bits k - 1) = k := by
  have h1 := two_pow_le_of_num_bits k h
  have h2 := lt_two_pow_num_bits k
  have h3 : num_bits k ≠ 0 := by simpa [num_bits_eq_zero_iff] using h
  have h4 : num_bits k = num_bits k - 1 + 1 := by omega
  rw [h4, pow_succ] at h2
  rw [mul_comm] at h2
  have hp : 0 < 2 ^ (num_bits k - 1) := by positivity
  have h5a : 1 ≤ k / 2 ^ (num_bits k - 1) := (Nat.one_le_div_iff hp).2 h1
  have h5b : k / 2 ^ (num_bits k - 1) < 2 := (Nat.div_lt_iff_lt_mul hp).2 h2
  have h6 := Nat.div_add_mod k (2 ^ (num_bits k - 1))
  have h5 : k / 2 ^ (num_bits k - 1) = 1 := by omega
  rw [h5] at h6
  omega

theorem testBit_top (k : Nat) (h : k ≠ 0) :
    k.testBit (num_bits k - 1) = true := by
  have h1 := num_bits_split k h
  have h0 : k % 2 ^ (num_bits k - 1) < 2 ^ (num_bits k - 1) :=
    Nat.mod_lt _ (by positivity)
  generalize he : num_bits k - 1 = e at h1 h0 ⊢
  rw [← h1, Nat.testBit_two_pow_add_eq, Nat.testBit_lt_two_pow h0]
  rfl

/-! ## Padding and byte packing -/

theorem padBits_length_dvd (bs : List Bool) : 8 ∣ (padBits bs).length := by
  simp only [padBits, List.length_append, List.length_replicate]
  omega

theorem bytesOfBitsAux_fuel (f : Nat) : ∀ g bs, bs.length ≤ f → bs.length ≤ g →
    bytesOfBitsAux f bs = bytesOfBitsAux g bs := by
  induction f with
  | zero =>
    intro g bs hf hg
    have : bs = [] := List.length_eq_zero.1 (by omega)
    subst this
    cases g <;> rfl
  | succ f ih =>
    intro g bs hf hg
    cases bs with
    | nil => cases g <;> rfl
    | cons b r =>
      cases g with
      | zero => simp at hg
      | succ g =>
        simp only [List.length_cons] at hf hg
        show bitsVal _ :: bytesOfBitsAux f _ = bitsVal _ :: bytesOfBitsAux g _
        rw [ih g ((b :: r).drop 8)
          (by simp only [List.length_drop, List.length_cons]; omega)
          (by simp only [List.length_drop, List.length_cons]; omega)]

theorem bytesOfBits_cons (bs : List Bool) (h : bs ≠ []) :
    bytesOfBits bs = bitsVal (bs.take 8) :: bytesOfBits (bs.drop 8) := by
  cases bs with
  | nil => exact absurd rfl h
  | cons b r =>
    show bytesOfBitsAux _ _ = _
    rw [show (b :: r).length = r.length + 1 from rfl]
    show bitsVal _ :: bytesOfBitsAux r.length ((b :: r).drop 8) = _
    rw [bytesOfBitsAux_fuel r.length ((b :: r).drop 8).length ((b :: r).drop 8)
      (by simp only [List.length_drop, List.length_cons]; omega) le_rfl]
    rfl

theorem bitsOfBytes_bytesOfBits (bs0 : List Bool) (h0 : 8 ∣ bs0.length) :
    bitsOfBytes (bytesOfBits bs0) = bs0 := by
  suffices H : ∀ n (bs : List Bool), bs.length = n → 8 ∣ bs.length →
      bitsOfBytes (bytesOfBits bs) = bs from H _ bs0 rfl h0
  intro n
  induction n using Nat.strong_induction_on with
  | _ n ih =>
  intro bs hn h
  cases hbs : bs with
  | nil => simp [bytesOfBits, bytesOfBitsAux, bitsOfBytes]
  | cons b r =>
    subst hbs
    simp only [List.length_cons] at h hn
    rw [bytesOfBits_cons _ (by simp)]
    have hlen : 8 ≤ r.length + 1 := by
      rcases h with ⟨c, hc⟩
      cases c with
      | zero => omega
      | succ c => omega
    have htake : ((b :: r).take 8).length = 8 := by
      simp [List.length_take]; omega
    have hdvd : 8 ∣ ((b :: r).drop 8).length := by
      simp only [List.length_drop, List.length_cons]
      rcases h with ⟨c, hc⟩
      cases c with
      | zero => omega
      | succ c => exact ⟨c, by omega⟩
    simp only [bitsOfBytes, List.map_cons, List.flatten_cons]
    have h1 : toBits 8 (bitsVal ((b :: r).take 8)) = (b :: r).take 8 := by
      have := toBits_bitsVal ((b :: r).take 8)
      rwa [htake] at this
    rw [h1]
    have h2 := ih ((b :: r).drop 8).length
      (by simp only [List.length_drop, List.length_cons]; omega)
      ((b :: r).drop 8) rfl hdvd
    simp only [bitsOfBytes] at h2
    rw [h2, List.take_append_drop]

theorem bitsOfBytes_code (bs : List Bool) :
    bitsOfBytes (bytesOfBits (padBits bs)) = padBits bs :=
  bitsOfBytes_bytesOfBits _ (padBits_length_dvd bs)

theorem padBits_append_assoc (a b : List Bool) :
    padBits (a ++ b) = a ++ (b ++ List.replicate ((8 - (a ++ b).length % 8) % 8) false) := by
  simp [padBits]

/-! ## Unary codes and top-bit arithmetic -/

theorem toBits_two_pow (h : Nat) :
    toBits (h + 1) (2 ^ h) = List.replicate h false ++ [true] := by
  induction h with
  | zero => rfl
  | succ h ih =>
    have h1 : 2 ^ (h+1) % 2 = 0 := by
      simp [pow_succ, Nat.mul_mod_left]
    have h2 : 2 ^ (h+1) / 2 = 2 ^ h := by
      simp [pow_succ]
    have hstep : toBits (h + 1 + 1) (2 ^ (h+1)) =
        decide (2 ^ (h+1) % 2 = 1) :: toBits (h+1) (2 ^ (h+1) / 2) := by
      rw [toBits]
    rw [hstep, h1, h2, ih, List.replicate_succ]
    simp

theorem readUnary_replicate_aux (h : Nat) : ∀ (a : Nat) (r : List Bool),
    a + h ≤ 31 →
    readUnary (List.replicate h false ++ [true] ++ r) a = some (a + h, r) := by
  induction h with
  | zero =>
    intro a r ha
    simp only [List.replicate_zero, List.nil_append, List.cons_append, readUnary]
    rw [if_neg (by omega)]
    simp
  | succ h ih =>
    intro a r ha
    rw [List.replicate_succ, List.cons_append, List.cons_append, readUnary]
    rw [if_neg (by omega), if_neg (by simp)]
    rw [show a + (h + 1) = a + 1 + h by omega]
    simpa using ih (a+1) r (by omega)

theorem readUnary_replicate (h : Nat) (hh : h ≤ 31) (r : List Bool) :
    readUnary (List.replicate h false ++ [true] ++ r) 0 = some (h, r) := by
  simpa using readUnary_replicate_aux h 0 r (by omega)

/-- Reading off only the low `c - 1` bits of a value whose bit `c - 1` is
elided by xor, then forcing that bit back on, restores the value. -/
theorem top_bit_restore (c n : Nat) (hc : 0 < c) (hnb : num_bits n = c) :
    ((n ^^^ 2 ^ (c - 1)) % 2 ^ (c - 1)) ||| 2 ^ (c - 1) = n := by
  have hn0 : n ≠ 0 := by
    intro h
    rw [h, num_bits_zero] at hnb
    omega
  have htop : n.testBit (c - 1) = true := by
    have := testBit_top n hn0
    rwa [hnb] at this
  have hlt : n < 2 ^ c := by rw [← hnb]; exact lt_two_pow_num_bits n
  apply Nat.eq_of_testBit_eq
  intro i
  rcases lt_trichotomy i (c - 1) with hi | hi | hi
  · rw [Nat.testBit_lor, Nat.testBit_mod_two_pow, Nat.testBit_xor,
      Nat.testBit_two_pow]
    have hne : ¬ (c - 1 = i) := by omega
    simp [hi, hne]
  · subst hi
    rw [Nat.testBit_lor, Nat.testBit_two_pow]
    simp [htop]
  · have h1 : n.testBit i = false := Nat.testBit_lt_two_pow (by
      calc n < 2 ^ c := hlt
      _ ≤ 2 ^ i := Nat.pow_le_pow_right (by norm_num) (by omega))
    rw [Nat.testBit_lor, Nat.testBit_mod_two_pow, Nat.testBit_two_pow, h1]
    have hne : ¬ (c - 1 = i) := by omega
    have hge : ¬ (i < c - 1) := by omega
    simp [hne, hge]

/-- The value field the encoder writes under TBR reads back as the low
`c - 1` bits; combined with the forced top bit this is the original value. -/
theorem tbr_roundtrip (c n : Nat) (hc : 0 < c) (hnb : num_bits n = c) (r : List Bool) :
    (readBits (c - 1) (toBits (c - 1) (n ^^^ 2 ^ (c - 1)) ++ r)).map
      (fun p => (p.1 ||| 2 ^ (c - 1), p.2)) = some (n, r) := by
  rw [readBits_toBits]
  show some ((n ^^^ 2 ^ (c - 1)) % 2 ^ (c - 1) ||| 2 ^ (c - 1), r) = some (n, r)
  rw [top_bit_restore c n hc hnb]

/-! ## Zig-zag arithmetic -/

theorem zigzag_unzigzag (s : Int) (h1 : -(2^31) ≤ s) (h2 : s < 2^31) :
    zigzag s < 2^32 ∧ unzigzag (zigzag s) = s := by
  unfold zigzag unzigzag
  split
  · rename_i h
    have hm : (2 * s) % ((2^32 : Nat) : Int) = 2 * s := by push_cast; omega
    rw [hm]
    have he : (2*s).toNat % 2 = 0 := by omega
    refine ⟨by omega, ?_⟩
    rw [if_pos he]
    push_cast
    omega
  · rename_i h
    have hm : (-(2 * s) - 1) % ((2^32 : Nat) : Int) = -(2*s) - 1 := by
      push_cast; omega
    rw [hm]
    have he : ¬ ((-(2*s) - 1).toNat % 2 = 0) := by omega
    refine ⟨by omega, ?_⟩
    rw [if_neg he]
    push_cast
    omega

/-! ## Planner: lengths and recurrences -/

@[simp] theorem numBitsFwd_length (m : Nat) (v : List Nat) :
    (numBitsFwd m v).length = v.length := by
  induction v generalizing m with
  | nil => rfl
  | cons x r ih => simp [numBitsFwd, ih]

@[simp] theorem numBitsBwd_length (f : List Nat) :
    (numBitsBwd f).length = f.length := by
  induction f with
  | nil => rfl
  | cons x r ih => simp [numBitsBwd, ih]

@[simp] theorem computeNumBits_length (m : Nat) (v : List Nat) :
    (ComputeNumBits m v).length = v.length := by
  simp [ComputeNumBits]

theorem headD_eq_getD (l : List Nat) : l.headD 0 = l.getD 0 0 := by
  cases l <;> rfl

theorem numBitsFwd_getD0 (m : Nat) (v : List Nat) (h : v ≠ []) :
    (numBitsFwd m v).getD 0 0 = max (num_bits (v.getD 0 0)) (m - 1) := by
  cases v with
  | nil => exact absurd rfl h
  | cons x r => rfl

theorem numBitsFwd_getD_succ (v : List Nat) (m i : Nat) (h : i + 1 < v.length) :
    (numBitsFwd m v).getD (i+1) 0 =
      max (num_bits (v.getD (i+1) 0)) ((numBitsFwd m v).getD i 0 - 1) := by
  induction v generalizing m i with
  | nil => simp at h
  | cons x r ih =>
    cases i with
    | zero =>
      have hr : r ≠ [] := by
        simp only [List.length_cons] at h
        exact List.ne_nil_of_length_pos (by omega)
      show (numBitsFwd _ r).getD 0 0 = _
      rw [numBitsFwd_getD0 _ r hr]
      rfl
    | succ i =>
      simp only [List.length_cons] at h
      show (numBitsFwd _ r).getD (i+1) 0 = _
      rw [ih _ i (by omega)]
      rfl

theorem numBitsBwd_getD (f : List Nat) (i : Nat) (h : i < f.length) :
    (numBitsBwd f).getD i 0 =
      max (f.getD i 0) ((numBitsBwd f).getD (i+1) 0 - 1) := by
  induction f generalizing i with
  | nil => simp at h
  | cons x r ih =>
    cases i with
    | zero =>
      show max x ((numBitsBwd r).headD 0 - 1) = max x ((numBitsBwd r).getD 0 0 - 1)
      rw [headD_eq_getD]
    | succ i =>
      simp only [List.length_cons] at h
      show (numBitsBwd r).getD i 0 = _
      rw [ih i (by omega)]
      rfl

/-- The backward pass only raises values. -/
theorem numBitsBwd_ge (f : List Nat) (i : Nat) (h : i < f.length) :
    f.getD i 0 ≤ (numBitsBwd f).getD i 0 := by
  rw [numBitsBwd_getD f i h]
  exact le_max_left _ _

/-- The forward pass dominates the per-value bit counts. -/
theorem numBitsFwd_ge_nb (v : List Nat) (m i : Nat) (h : i < v.length) :
    num_bits (v.getD i 0) ≤ (numBitsFwd m v).getD i 0 := by
  cases i with
  | zero =>
    rw [numBitsFwd_getD0 m v (List.ne_nil_of_length_pos (by omega))]
    exact le_max_left _ _
  | succ i =>
    rw [numBitsFwd_getD_succ v m i h]
    exact le_max_left _ _

/-- The forward chain decays by at most one per step. -/
theorem numBitsFwd_chain (v : List Nat) (m i : Nat) (h : i + 1 < v.length) :
    (numBitsFwd m v).getD i 0 - 1 ≤ (numBitsFwd m v).getD (i+1) 0 := by
  rw [numBitsFwd_getD_succ v m i h]
  exact le_max_right _ _

/-! ## Claim C2: plan feasibility and minimality -/

theorem plan_feasible (mrb : Nat) (v : List Nat) :
    WidthsOk mrb v (ComputeNumBits mrb v) := by
  refine ⟨by simp, ?_, ?_, ?_⟩
  · intro i hi
    calc num_bits (v.getD i 0) ≤ (numBitsFwd mrb v).getD i 0 :=
        numBitsFwd_ge_nb v mrb i hi
    _ ≤ (ComputeNumBits mrb v).getD i 0 :=
        numBitsBwd_ge _ i (by simpa using hi)
  · intro i hi
    simp only [ComputeNumBits]
    have hb := numBitsBwd_getD (numBitsFwd mrb v) i (by simpa using (by omega : i < v.length))
    constructor
    · -- w[i+1] ≤ w[i] + 1, from w[i] ≥ w[i+1] - 1
      omega
    · -- w[i] ≤ w[i+1] + 1
      have hf : (numBitsFwd mrb v).getD i 0 - 1 ≤ (numBitsFwd mrb v).getD (i+1) 0 :=
        numBitsFwd_chain v mrb i hi
      have hb' := numBitsBwd_ge (numBitsFwd mrb v) (i+1) (by simpa using hi)
      omega
  · intro hv
    have h0 : 0 < v.length := List.length_pos.2 hv
    have hf0 := numBitsFwd_getD0 mrb v hv
    have hb := numBitsBwd_ge (numBitsFwd mrb v) 0 (by simpa using h0)
    simp only [ComputeNumBits]
    omega

theorem fwd_le_of_feasible (mrb : Nat) (v u : List Nat) (hu : WidthsOk mrb v u) :
    ∀ i, i < v.length → (numBitsFwd mrb v).getD i 0 ≤ u.getD i 0 := by
  obtain ⟨hlen, hnb, hslope, hseed⟩ := hu
  intro i
  induction i with
  | zero =>
    intro h0
    rw [numBitsFwd_getD0 mrb v (List.ne_nil_of_length_pos h0)]
    have := hnb 0 h0
    have := hseed (List.ne_nil_of_length_pos h0)
    omega
  | succ i ih =>
    intro hi
    rw [numBitsFwd_getD_succ v mrb i hi]
    have h1 := ih (by omega)
    have h2 := hnb (i+1) hi
    have h3 := (hslope i hi).2
    omega

theorem plan_minimal (mrb : Nat) (v u : List Nat) (hu : WidthsOk mrb v u) :
    ∀ i, i < v.length → (ComputeNumBits mrb v).getD i 0 ≤ u.getD i 0 := by
  have hfwd := fwd_le_of_feasible mrb v u hu
  obtain ⟨hlen, hnb, hslope, hseed⟩ := hu
  suffices H : ∀ d i, i < v.length → v.length - 1 - i = d →
      (ComputeNumBits mrb v).getD i 0 ≤ u.getD i 0 by
    intro i hi
    exact H (v.length - 1 - i) i hi rfl
  intro d
  induction d with
  | zero =>
    intro i hi hd
    have hlast : i = v.length - 1 := by omega
    have hb := numBitsBwd_getD (numBitsFwd mrb v) i (by simpa using hi)
    have hz : (numBitsBwd (numBitsFwd mrb v)).getD (i+1) 0 = 0 := by
      apply List.getD_eq_default
      simp
      omega
    simp only [ComputeNumBits] at *
    rw [hb, hz]
    simpa using hfwd i hi
  | succ d ih =>
    intro i hi hd
    have hi1 : i + 1 < v.length := by omega
    have hb := numBitsBwd_getD (numBitsFwd mrb v) i (by simpa using hi)
    have hnext := ih (i+1) hi1 (by omega)
    have hsl := (hslope i hi1).1
    have hf := hfwd i hi
    simp only [ComputeNumBits] at *
    omega

/-- C2: the width sequence produced by `ComputeNumBits` equals the forward
pass followed by the zero-seeded backward pass, is itself feasible (covers
each value's bit count, has slope at most one, and starts no lower than
`most_recent_num_bits - 1`), and is pointwise minimal among all feasible
sequences. -/
theorem C2_plan_minimal (mrb : Nat) (v : List Nat) :
    ComputeNumBits mrb v = numBitsBwd (numBitsFwd mrb v) ∧
    WidthsOk mrb v (ComputeNumBits mrb v) ∧
    ∀ u, WidthsOk mrb v u →
      ∀ i, i < v.length → (ComputeNumBits mrb v).getD i 0 ≤ u.getD i 0 :=
  ⟨rfl, plan_feasible mrb v, fun u hu => plan_minimal mrb v u hu⟩

/-- C2 (witness): the theorem instantiated at `mrb = 2`, `v = [5, 0]`,
comparing against the concrete feasible sequence `[3, 2]`. -/
theorem C2_plan_minimal_witness :
    ComputeNumBits 2 [5, 0] = [3, 2] ∧
    WidthsOk 2 [5, 0] [3, 2] ∧
    (ComputeNumBits 2 [5, 0]).getD 0 0 ≤ 3 ∧
    (ComputeNumBits 2 [5, 0]).getD 1 0 ≤ 4 := by
  have h := C2_plan_minimal 2 [5, 0]
  have hok : WidthsOk 2 [5, 0] [3, 4] := by
    refine ⟨by decide, by decide, ?_, by decide⟩
    intro i hi
    have h2 : i = 0 := by
      simp only [List.length_cons, List.length_nil] at hi
      omega
    subst h2
    decide
  exact ⟨by decide, h.2.1, h.2.2 [3, 4] hok 0 (by decide),
    h.2.2 [3, 4] hok 1 (by decide)⟩

/-! ## Claim C3: top-bit-redundancy soundness -/

/-- Core TBR lemma: whenever the planned widths satisfy the TBR condition at
`i` (with `p0` standing for the ghost previous width, any value at least the
forward seed `mrb`), the width is exactly the value's bit count. -/
theorem plan_tbr (mrb p0 : Nat) (v : List Nat) (hp : mrb ≤ p0) (i : Nat)
    (hi : i < v.length)
    (hprev : (if i = 0 then p0 else (ComputeNumBits mrb v).getD (i-1) 0) ≤
      (ComputeNumBits mrb v).getD i 0)
    (hnext : i + 1 < v.length →
      (ComputeNumBits mrb v).getD (i+1) 0 ≤ (ComputeNumBits mrb v).getD i 0) :
    num_bits (v.getD i 0) = (ComputeNumBits mrb v).getD i 0 := by
  have hfnb : num_bits (v.getD i 0) ≤ (numBitsFwd mrb v).getD i 0 :=
    numBitsFwd_ge_nb v mrb i hi
  have hWf : (numBitsFwd mrb v).getD i 0 ≤ (ComputeNumBits mrb v).getD i 0 :=
    numBitsBwd_ge _ i (by simpa using hi)
  by_contra hne
  have hb := numBitsBwd_getD (numBitsFwd mrb v) i (by simpa using hi)
  simp only [ComputeNumBits] at *
  by_cases hWgt : (numBitsFwd mrb v).getD i 0 <
      (numBitsBwd (numBitsFwd mrb v)).getD i 0
  · -- the backward pass raised `W[i]`, so `W[i+1] = W[i] + 1 > W[i]`
    have hi1 : i + 1 < v.length := by
      by_contra hout
      have hz : (numBitsBwd (numBitsFwd mrb v)).getD (i+1) 0 = 0 := by
        apply List.getD_eq_default
        simp
        omega
      omega
    have := hnext hi1
    omega
  · -- `W[i] = f[i] > nb(v[i])`: the forward chain forced it from the left
    cases i with
    | zero =>
      have h0 := numBitsFwd_getD0 mrb v (List.ne_nil_of_length_pos hi)
      rw [if_pos rfl] at hprev
      omega
    | succ j =>
      have hrec := numBitsFwd_getD_succ v mrb j hi
      have hWfj : (numBitsFwd mrb v).getD j 0 ≤
          (numBitsBwd (numBitsFwd mrb v)).getD j 0 :=
        numBitsBwd_ge _ j (by simp; omega)
      rw [if_neg (Nat.succ_ne_zero j), Nat.add_sub_cancel] at hprev
      omega

theorem and_two_pow_ne_zero (n j : Nat) (h : n.testBit j = true) :
    n &&& 2 ^ j ≠ 0 := by
  intro hz
  have : (n &&& 2 ^ j).testBit j = true := by
    rw [Nat.testBit_and, h, Nat.testBit_two_pow]
    simp
  rw [hz, Nat.zero_testBit] at this
  exact Bool.false_ne_true this

/-- C3: whenever the encoder elides the top bit of a symbol — the TBR
condition `prev ≤ cur ∧ next ≤ cur ∧ cur > 0` holds for the planned widths
with the boundary ghosts `w[-1] = w[0]` and `w[N] = w[N-1]` — bit
`cur - 1` of the value is 1, the encoder's assertion
`(i & (1 << (cur_num_bits - 1))) != 0` holds, and the decoder's
reconstruction (reading `cur - 1` bits of the xor-masked value and forcing
bit `cur - 1` on) restores the value exactly. -/
theorem C3_tbr_sound (v : List Nat) (i : Nat) (hi : i < v.length)
    (htbr : (if i = 0 then (planW v).getD 0 0 else (planW v).getD (i-1) 0) ≤
        (planW v).getD i 0 ∧
      (if i + 1 < v.length then (planW v).getD (i+1) 0
        else (planW v).getD (v.length - 1) 0) ≤ (planW v).getD i 0 ∧
      0 < (planW v).getD i 0) :
    (v.getD i 0).testBit ((planW v).getD i 0 - 1) = true ∧
    v.getD i 0 &&& 2 ^ ((planW v).getD i 0 - 1) ≠ 0 ∧
    ((v.getD i 0 ^^^ 2 ^ ((planW v).getD i 0 - 1)) % 2 ^ ((planW v).getD i 0 - 1))
      ||| 2 ^ ((planW v).getD i 0 - 1) = v.getD i 0 := by
  obtain ⟨hprev, hnext, hcur⟩ := htbr
  have hnb : num_bits (v.getD i 0) = (planW v).getD i 0 := by
    apply plan_tbr 0 ((planW v).getD 0 0) v (Nat.zero_le _) i hi hprev
    intro hi1
    rwa [if_pos hi1] at hnext
  have hv0 : v.getD i 0 ≠ 0 := by
    intro hz
    rw [hz, num_bits_zero] at hnb
    omega
  have htop : (v.getD i 0).testBit ((planW v).getD i 0 - 1) = true := by
    have := testBit_top (v.getD i 0) hv0
    rwa [hnb] at this
  exact ⟨htop, and_two_pow_ne_zero _ _ htop,
    top_bit_restore _ _ hcur hnb⟩

/-- C3 (witness): the theorem at `v = [5]`, `i = 0`, where `w = [3]` and the
ghosts give `prev = next = cur = 3`. -/
theorem C3_tbr_sound_witness :
    (5 : Nat).testBit 2 = true ∧
    (5 : Nat) &&& 2 ^ 2 ≠ 0 ∧
    (((5 : Nat) ^^^ 2 ^ 2) % 2 ^ 2) ||| 2 ^ 2 = 5 := by
  exact C3_tbr_sound [5] 0 (by decide) (by decide)

/-! ## Prelude reading -/

theorem prelude_read (w0 : Nat) (h : w0 ≤ 32) (bytes : List Nat) (rest : List Bool)
    (hb : bitsOfBytes bytes = preludeBits w0 ++ rest) :
    mkRUState bytes = some ⟨rest, (w0 : Int), (w0 : Int), -1⟩ := by
  by_cases h31 : w0 < 31
  · have hp : preludeBits w0 = toBits 5 w0 := by
      unfold preludeBits
      rw [if_neg (by omega), if_neg (by omega)]
      simp
    have h32 : (2:Nat)^5 = 32 := by norm_num
    simp only [mkRUState, hb, hp]
    rw [readBits_toBits]
    have hm : w0 % 2 ^ 5 = w0 := Nat.mod_eq_of_lt (by rw [h32]; omega)
    simp only [Option.some_bind, hm]
    rw [if_neg (by omega)]
  · rcases (by omega : w0 = 31 ∨ w0 = 32) with h32 | h32 <;> subst h32
    · have hp : preludeBits 31 = toBits 5 31 ++ toBits 1 0 := by decide
      simp only [mkRUState, hb, hp, List.append_assoc]
      rw [readBits_toBits]
      simp only [Option.some_bind]
      rw [if_pos (by norm_num), readBits_toBits]
      simp
    · have hp : preludeBits 32 = toBits 5 31 ++ toBits 1 1 := by decide
      simp only [mkRUState, hb, hp, List.append_assoc]
      rw [readBits_toBits]
      simp only [Option.some_bind]
      rw [if_pos (by norm_num), readBits_toBits]
      simp

theorem writePrelude_eq (f : Nat) (s : UintStream) :
    writePrelude f s = { s with
      bits := s.bits ++ preludeBits f
      started := true
      most_recent_num_bits := f } := by
  unfold writePrelude preludeBits bsWrite
  by_cases h31 : 31 ≤ f <;> simp [h31]

/-! ## `maxChain` representation of the backward pass -/

theorem getD_eq_headD_drop (l : List Nat) (i : Nat) :
    l.getD i 0 = (l.drop i).headD 0 := by
  induction l generalizing i with
  | nil => simp
  | cons x r ih =>
    cases i with
    | zero => rfl
    | succ i => simpa using ih i

theorem getD_drop (l : List Nat) (n m : Nat) :
    (l.drop n).getD m 0 = l.getD (n + m) 0 := by
  induction l generalizing n with
  | nil => simp
  | cons x r ih =>
    cases n with
    | zero => simp
    | succ n =>
      show (r.drop n).getD m 0 = _
      rw [ih n, show n + 1 + m = (n + m) + 1 by omega]
      rfl

theorem numBitsBwd_headD (f : List Nat) :
    (numBitsBwd f).headD 0 = maxChain f := by
  induction f with
  | nil => rfl
  | cons x r ih =>
    show max x ((numBitsBwd r).headD 0 - 1) = max x (maxChain r - 1)
    rw [ih]

theorem numBitsBwd_drop (f : List Nat) (n : Nat) :
    (numBitsBwd f).drop n = numBitsBwd (f.drop n) := by
  induction f generalizing n with
  | nil => simp [numBitsBwd]
  | cons x r ih =>
    cases n with
    | zero => rfl
    | succ n =>
      show (numBitsBwd r).drop n = _
      rw [ih n]
      rfl

/-- The backward pass at index `i` is the decayed maximum of the forward
chain from `i` on. -/
theorem numBitsBwd_getD_maxChain (f : List Nat) (i : Nat) :
    (numBitsBwd f).getD i 0 = maxChain (f.drop i) := by
  rw [getD_eq_headD_drop, numBitsBwd_drop, numBitsBwd_headD]

theorem maxChain_append (a b : List Nat) :
    maxChain (a ++ b) = max (maxChain a) (maxChain b - a.length) := by
  induction a with
  | nil => simp [maxChain]
  | cons x r ih =>
    show max x (maxChain (r ++ b) - 1) =
      max (max x (maxChain r - 1)) (maxChain b - (r.length + 1))
    rw [ih]
    omega

theorem maxChain_le_of_forall (c : Nat) (l : List Nat) (h : ∀ x ∈ l, x ≤ c) :
    maxChain l ≤ c := by
  induction l with
  | nil => simpa [maxChain] using Nat.zero_le c
  | cons x r ih =>
    simp only [maxChain]
    have h1 := h x (by simp)
    have h2 := ih (fun y hy => h y (by simp [hy]))
    omega

theorem maxChain_mono (l g : List Nat) (h : List.Forall₂ (· ≤ ·) l g) :
    maxChain l ≤ maxChain g := by
  induction h with
  | nil => exact le_rfl
  | cons hx hrest ih =>
    show max _ (maxChain _ - 1) ≤ max _ (maxChain _ - 1)
    omega

theorem headD_le_maxChain (l : List Nat) : l.headD 0 ≤ maxChain l := by
  cases l with
  | nil => simp [maxChain]
  | cons x r => simp [maxChain]

/-- A list whose entries drop by at most one from each entry to the next. -/
def DecayChain : List Nat → Prop
  | [] => True
  | [_] => True
  | x :: y :: r => x ≤ y + 1 ∧ DecayChain (y :: r)

theorem decayChain_tail (x : Nat) (r : List Nat) (h : DecayChain (x :: r)) :
    DecayChain r := by
  cases r with
  | nil => trivial
  | cons y rr => exact h.2

theorem decayChain_head_le (x : Nat) (r : List Nat) (h : DecayChain (x :: r))
    (hr : r ≠ []) : x ≤ r.headD 0 + 1 := by
  cases r with
  | nil => exact absurd rfl hr
  | cons y rr => exact h.1

/-- Along a decaying chain, dropping `j` entries lowers the chain maximum by
at most `j`. -/
theorem maxChain_drop_ge (j : Nat) : ∀ l : List Nat, DecayChain l →
    j < l.length → maxChain l ≤ maxChain (l.drop j) + j := by
  induction j with
  | zero => intro l _ _; simp
  | succ j ih =>
    intro l hd hj
    cases l with
    | nil => simp at hj
    | cons x r =>
      have hr : r ≠ [] := by
        simp only [List.length_cons] at hj
        exact List.ne_nil_of_length_pos (by omega)
      have h1 : x ≤ r.headD 0 + 1 := decayChain_head_le x r hd hr
      have h2 : r.headD 0 ≤ maxChain r := headD_le_maxChain r
      have h3 := ih r (decayChain_tail x r hd)
        (by simp only [List.length_cons] at hj; omega)
      show maxChain (x :: r) ≤ maxChain (r.drop j) + (j + 1)
      simp only [maxChain]
      omega

/-- The forward chain is a decaying chain. -/
theorem numBitsFwd_decay (v : List Nat) : ∀ m, DecayChain (numBitsFwd m v) := by
  induction v with
  | nil => intro m; trivial
  | cons x r ih =>
    intro m
    cases r with
    | nil => trivial
    | cons y rr =>
      refine ⟨?_, ih _⟩
      show max (num_bits x) (m - 1) ≤
        max (num_bits y) (max (num_bits x) (m - 1) - 1) + 1
      omega

/-- Seed monotonicity of the forward pass. -/
theorem numBitsFwd_mono (v : List Nat) : ∀ m m', m ≤ m' →
    List.Forall₂ (· ≤ ·) (numBitsFwd m v) (numBitsFwd m' v) := by
  induction v with
  | nil => intro m m' _; exact List.Forall₂.nil
  | cons x r ih =>
    intro m m' h
    exact List.Forall₂.cons (by omega) (ih _ _ (by omega))

/-- Lower bound: the forward chain at index `j` is at least the seed minus
`j + 1`. -/
theorem numBitsFwd_seed_lower (v : List Nat) : ∀ m j, j < v.length →
    m - 1 - j ≤ (numBitsFwd m v).getD j 0 := by
  induction v with
  | nil => intro m j h; simp at h
  | cons x r ih =>
    intro m j hj
    cases j with
    | zero =>
      show m - 1 - 0 ≤ max (num_bits x) (m - 1)
      omega
    | succ j =>
      have := ih (max (num_bits x) (m - 1)) j
        (by simp only [List.length_cons] at hj; omega)
      show m - 1 - (j+1) ≤ (numBitsFwd (max (num_bits x) (m - 1)) r).getD j 0
      omega

/-- Upper bound: raising the seed raises the chain by at most the decayed
seed surplus. -/
theorem numBitsFwd_seed_upper (v : List Nat) : ∀ m m' j, m ≤ m' → j < v.length →
    (numBitsFwd m' v).getD j 0 ≤ max ((numBitsFwd m v).getD j 0) (m' - 1 - j) := by
  induction v with
  | nil => intro m m' j _ h; simp at h
  | cons x r ih =>
    intro m m' j hm hj
    cases j with
    | zero =>
      show max (num_bits x) (m' - 1) ≤ max (max (num_bits x) (m - 1)) (m' - 1 - 0)
      omega
    | succ j =>
      have hj' : j < r.length := by simp only [List.length_cons] at hj; omega
      have h1 := ih (max (num_bits x) (m - 1)) (max (num_bits x) (m' - 1)) j
        (by omega) hj'
      have h2 := numBitsFwd_seed_lower r (max (num_bits x) (m - 1)) j hj'
      show (numBitsFwd (max (num_bits x) (m' - 1)) r).getD j 0 ≤
        max ((numBitsFwd (max (num_bits x) (m - 1)) r).getD j 0) (m' - 1 - (j+1))
      omega

/-- `maxChain` comparison from an indexwise decayed bound. -/
theorem maxChain_le_of_getD (l g : List Nat) (c : Nat)
    (hlen : l.length = g.length)
    (h : ∀ t, t < l.length → l.getD t 0 ≤ max (g.getD t 0) (c - t)) :
    maxChain l ≤ max (maxChain g) c := by
  induction l generalizing g c with
  | nil => simp [maxChain]
  | cons x r ih =>
    cases g with
    | nil => simp at hlen
    | cons y s =>
      have h0 := h 0 (by simp)
      have hr := ih s (c - 1) (by simpa using hlen) (fun t ht => by
        have h2 := h (t+1) (by simp only [List.length_cons]; omega)
        have e1 : (x :: r).getD (t+1) 0 = r.getD t 0 := rfl
        have e2 : (y :: s).getD (t+1) 0 = s.getD t 0 := rfl
        rw [e1, e2] at h2
        omega)
      show max x (maxChain r - 1) ≤ max (max y (maxChain s - 1)) c
      have e0x : (x :: r).getD 0 0 = x := rfl
      have e0y : (y :: s).getD 0 0 = y := rfl
      rw [e0x, e0y] at h0
      omega

/-- Splitting the forward pass at an append. -/
theorem numBitsFwd_append (a b : List Nat) : ∀ m,
    numBitsFwd m (a ++ b) =
      numBitsFwd m a ++ numBitsFwd ((numBitsFwd m a).getLastD m) b := by
  induction a with
  | nil => intro m; simp [numBitsFwd]
  | cons x r ih =>
    intro m
    show max (num_bits x) (m - 1) ::
        numBitsFwd (max (num_bits x) (m - 1)) (r ++ b) =
      (max (num_bits x) (m - 1) :: numBitsFwd (max (num_bits x) (m - 1)) r) ++
        numBitsFwd ((max (num_bits x) (m - 1) ::
          numBitsFwd (max (num_bits x) (m - 1)) r).getLastD m) b
    rw [List.cons_append, List.getLastD_cons, ih (max (num_bits x) (m - 1))]

/-- All entries of the forward chain are at most 32, provided the seed is
and every value fits in 32 bits. -/
theorem numBitsFwd_le_32 (v : List Nat) : ∀ m, m ≤ 32 →
    (∀ x ∈ v, x < 2 ^ 32) → ∀ y ∈ numBitsFwd m v, y ≤ 32 := by
  induction v with
  | nil => intro m _ _ y hy; simp [numBitsFwd] at hy
  | cons x r ih =>
    intro m hm hv y hy
    simp only [numBitsFwd, List.mem_cons] at hy
    have hx : num_bits x ≤ 32 := num_bits_le_32 x (hv x (by simp))
    rcases hy with hy | hy
    · omega
    · exact ih (max (num_bits x) (m - 1)) (by omega)
        (fun z hz => hv z (by simp [hz])) y hy

/-! ## The flush-window agreement theorems -/

/-- Replacing the forward seed by any value between the chained-in seed and
the backward-pass value at the same position does not change the plan. -/
theorem win_core (B : List Nat) (mg ml : Nat) (h1 : mg ≤ ml)
    (h2 : ml ≤ maxChain (numBitsFwd mg B) + 1) :
    numBitsBwd (numBitsFwd ml B) = numBitsBwd (numBitsFwd mg B) := by
  apply List.ext_getElem (by simp)
  intro j hj1 hj2
  have hjB : j < B.length := by simpa using hj1
  rw [← List.getD_eq_getElem _ 0 hj1, ← List.getD_eq_getElem _ 0 hj2]
  rw [numBitsBwd_getD_maxChain, numBitsBwd_getD_maxChain]
  have hge : maxChain ((numBitsFwd mg B).drop j) ≤
      maxChain ((numBitsFwd ml B).drop j) :=
    maxChain_mono _ _ (List.forall₂_drop j (numBitsFwd_mono B mg ml h1))
  have hle : maxChain ((numBitsFwd ml B).drop j) ≤
      max (maxChain ((numBitsFwd mg B).drop j)) (ml - 1 - j) := by
    apply maxChain_le_of_getD _ _ _ (by simp)
    intro t ht
    have htB : j + t < B.length := by
      simp only [List.length_drop, numBitsFwd_length] at ht
      omega
    rw [getD_drop, getD_drop]
    have := numBitsFwd_seed_upper B mg ml (j + t) h1 htB
    omega
  have hdecay : maxChain (numBitsFwd mg B) ≤
      maxChain ((numBitsFwd mg B).drop j) + j :=
    maxChain_drop_ge j _ (numBitsFwd_decay B mg) (by simpa using hjB)
  omega

/-- The plan of a suffix, seeded with the plan value just before the cut,
is the suffix of the plan (`FlushSome` boundary consistency). -/
theorem getLastD_eq_getD (l : List Nat) : l ≠ [] → ∀ d : Nat,
    l.getLastD d = l.getD (l.length - 1) 0 := by
  induction l with
  | nil => intro h; exact absurd rfl h
  | cons x r ih =>
    intro _ d
    cases hr : r with
    | nil => rfl
    | cons y s =>
      rw [List.getLastD_cons, ← hr, ih (by simp [hr]) x]
      rw [show (x :: r).length - 1 = (r.length - 1) + 1 by simp [hr]]
      rfl

theorem getD_take (l : List Nat) : ∀ k i : Nat, i < k →
    (l.take k).getD i 0 = l.getD i 0 := by
  induction l with
  | nil => simp
  | cons x r ih =>
    intro k i h
    cases k with
    | zero => omega
    | succ k =>
      cases i with
      | zero => rfl
      | succ i =>
        show (r.take k).getD i 0 = r.getD i 0
        exact ih k i (by omega)

theorem plan_drop_agree (v : List Nat) (k : Nat) (hk : 1 ≤ k)
    (hkl : k ≤ v.length) :
    ComputeNumBits ((planW v).getD (k-1) 0) (v.drop k) = (planW v).drop k := by
  rcases Nat.eq_or_lt_of_le hkl with he | hlt
  · have h1 : v.drop k = [] := by rw [he]; simp
    have h2 : (planW v).drop k = [] :=
      List.drop_eq_nil_of_le (by
        simp only [planW, computeNumBits_length]
        omega)
    rw [h1, h2]
    rfl
  · have htakelen : (v.take k).length = k := by simp; omega
    have htake : numBitsFwd 0 (v.take k) = (numBitsFwd 0 v).take k := by
      have h2 := numBitsFwd_append (v.take k) (v.drop k) 0
      rw [List.take_append_drop] at h2
      have hlenA : (numBitsFwd 0 (v.take k)).length = k := by simp [htakelen]
      rw [h2, List.take_left' hlenA]
    have hlast : (numBitsFwd 0 (v.take k)).getLastD 0 =
        (numBitsFwd 0 v).getD (k-1) 0 := by
      rw [getLastD_eq_getD _ (by
        intro hz
        have hll := numBitsFwd_length 0 (v.take k)
        rw [hz] at hll
        simp [htakelen] at hll
        omega) 0]
      rw [htake]
      simp only [List.length_take, numBitsFwd_length]
      rw [show min k v.length = k by omega]
      exact getD_take _ k (k-1) (by omega)
    set mg := (numBitsFwd 0 v).getD (k-1) 0 with hmg
    have hdropf : (numBitsFwd 0 v).drop k = numBitsFwd mg (v.drop k) := by
      have h2 := numBitsFwd_append (v.take k) (v.drop k) 0
      rw [List.take_append_drop, hlast] at h2
      have hlenA : (numBitsFwd 0 (v.take k)).length = k := by simp [htakelen]
      rw [h2, List.drop_left' hlenA]
    set ml := (planW v).getD (k-1) 0 with hml
    have h1 : mg ≤ ml := by
      rw [hmg, hml]
      exact numBitsBwd_ge _ (k-1) (by simp; omega)
    have h2 : ml ≤ maxChain (numBitsFwd mg (v.drop k)) + 1 := by
      rw [← hdropf]
      have hWk : (planW v).getD k 0 = maxChain ((numBitsFwd 0 v).drop k) :=
        numBitsBwd_getD_maxChain _ k
      have hslope := ((plan_feasible 0 v).2.2.1 (k-1) (by omega)).2
      rw [show k - 1 + 1 = k by omega] at hslope
      rw [hml]
      simp only [planW] at *
      omega
    show numBitsBwd (numBitsFwd ml (v.drop k)) = (planW v).drop k
    rw [win_core (v.drop k) mg ml h1 h2, ← hdropf]
    simp only [planW, ComputeNumBits]
    rw [numBitsBwd_drop]


/-! ## The encoder loop in normal form -/

theorem NFenc_cons (p : Nat) (st : Step) (r : List Step) :
    NFenc p (st :: r) = if st.cur = 0 then NFenc ((p + 1) % 2 ^ 32) r
      else (if p ≠ 0 then zrunCode p else []) ++ stepCode st ++ NFenc 0 r := rfl

theorem trailingP_cons (p : Nat) (st : Step) (r : List Step) :
    trailingP p (st :: r) = if st.cur = 0 then trailingP ((p + 1) % 2 ^ 32) r
      else trailingP 0 r := rfl

theorem NFenc_append (l₁ l₂ : List Step) : ∀ p,
    NFenc p (l₁ ++ l₂) = NFenc p l₁ ++ NFenc (trailingP p l₁) l₂ := by
  induction l₁ with
  | nil => intro p; simp [NFenc, trailingP]
  | cons st r ih =>
    intro p
    show NFenc p (st :: (r ++ l₂)) = _
    rw [NFenc_cons p st (r ++ l₂), NFenc_cons p st r, trailingP_cons p st r]
    by_cases hc : st.cur = 0
    · simp only [if_pos hc]
      exact ih _
    · simp only [if_neg hc]
      rw [ih 0]
      simp [List.append_assoc]

theorem trailingP_append (l₁ l₂ : List Step) : ∀ p,
    trailingP p (l₁ ++ l₂) = trailingP (trailingP p l₁) l₂ := by
  induction l₁ with
  | nil => intro p; simp [trailingP]
  | cons st r ih =>
    intro p
    show trailingP p (st :: (r ++ l₂)) = _
    rw [trailingP_cons p st (r ++ l₂), trailingP_cons p st r]
    by_cases hc : st.cur = 0
    · simp only [if_pos hc]
      exact ih _
    · simp only [if_neg hc]
      exact ih 0

theorem FlushPendingZeros_eq (s : UintStream) :
    FlushPendingZeros s = { s with
      bits := s.bits ++ zrunCode s.num_pending_zeros
      num_pending_zeros := 0 } := by
  unfold FlushPendingZeros zrunCode bsWrite
  simp

/-- One `WriteCode` call appends its normal-form bits. -/
theorem WriteCode_eq (st : Step) (s : UintStream) :
    WriteCode st s = { s with
      bits := s.bits ++ NFenc s.num_pending_zeros [st]
      num_pending_zeros := trailingP s.num_pending_zeros [st]
      trace := s.trace ++ [st] } := by
  unfold WriteCode
  by_cases hc : st.cur = 0
  · simp [hc, NFenc, trailingP]
  · rw [NFenc_cons, trailingP_cons, if_neg hc, if_neg hc, if_neg hc]
    unfold stepCode bsWrite
    by_cases hp : s.num_pending_zeros ≠ 0 <;>
      by_cases h1 : st.next = st.cur + 1 <;>
        by_cases h2 : st.next + 1 = st.cur <;>
          by_cases h3 : st.prev ≤ st.cur ∧ st.next ≤ st.cur ∧ 0 < st.cur <;>
            simp [hp, h1, h2, h3, FlushPendingZeros_eq, NFenc, trailingP,
              List.append_assoc] <;>
              omega

/-- A run of `WriteCode` calls appends exactly the normal-form bits and
updates the pending-zeros counter and the trace accordingly; no other state
component changes. -/
theorem writeSteps_eq (l : List Step) : ∀ s : UintStream,
    writeSteps l s = { s with
      bits := s.bits ++ NFenc s.num_pending_zeros l
      num_pending_zeros := trailingP s.num_pending_zeros l
      trace := s.trace ++ l } := by
  induction l with
  | nil => intro s; simp [writeSteps, NFenc, trailingP]
  | cons st r ih =>
    intro s
    show writeSteps r (WriteCode st s) = _
    rw [ih (WriteCode st s), WriteCode_eq]
    have hs : st :: r = [st] ++ r := rfl
    rw [hs, NFenc_append, trailingP_append]
    simp [List.append_assoc]

/-! ## `mkSteps` algebra -/

theorem mkSteps_nil_widths (p : Nat) (b : List Nat) : mkSteps p b [] = [] := by
  cases b <;> rfl

theorem headD_take (l : List Nat) (m : Nat) :
    (l.take (m + 1)).headD 0 = l.headD 0 := by
  cases l <;> rfl

theorem mkSteps_take_widths (vals : List Nat) : ∀ (prev : Nat) (ws : List Nat),
    mkSteps prev vals (ws.take (vals.length + 1)) = mkSteps prev vals ws := by
  induction vals with
  | nil => intro prev ws; cases ws <;> rfl
  | cons v vs ih =>
    intro prev ws
    cases ws with
    | nil => rfl
    | cons c ns =>
      show (⟨prev, c, (ns.take (vs.length + 1)).headD 0, v⟩ : Step) ::
          mkSteps c vs (ns.take (vs.length + 1)) =
        (⟨prev, c, ns.headD 0, v⟩ : Step) :: mkSteps c vs ns
      rw [headD_take, ih c ns]

theorem mkSteps_append (a b : List Nat) : ∀ (prev : Nat) (ws : List Nat),
    mkSteps prev (a ++ b) ws =
      mkSteps prev a ws ++
        mkSteps (if a = [] then prev else ws.getD (a.length - 1) 0) b
          (ws.drop a.length) := by
  induction a with
  | nil => intro prev ws; simp [mkSteps]
  | cons x r ih =>
    intro prev ws
    cases ws with
    | nil => simp [mkSteps_nil_widths]
    | cons c ns =>
      show (⟨prev, c, ns.headD 0, x⟩ : Step) :: mkSteps c (r ++ b) ns = _
      rw [ih c ns]
      have hseed : (if r = [] then c else ns.getD (r.length - 1) 0) =
          (c :: ns).getD ((x :: r).length - 1) 0 := by
        cases r with
        | nil => rfl
        | cons y s =>
          show ns.getD ((y :: s).length - 1) 0 = ns.getD ((y :: s).length + 1 - 1 - 1) 0
          simp
      rw [hseed]
      rw [if_neg (by simp : ¬ x :: r = [])]
      rfl

theorem mkSteps_map_val (vals : List Nat) : ∀ (prev : Nat) (ws : List Nat),
    vals.length ≤ ws.length → (mkSteps prev vals ws).map Step.val = vals := by
  induction vals with
  | nil => intro prev ws _; cases ws <;> rfl
  | cons v vs ih =>
    intro prev ws h
    cases ws with
    | nil => simp at h
    | cons c ns =>
      show v :: (mkSteps c vs ns).map Step.val = v :: vs
      rw [ih c ns (by simp only [List.length_cons] at h; omega)]

theorem mkSteps_length (vals : List Nat) : ∀ (prev : Nat) (ws : List Nat),
    vals.length ≤ ws.length → (mkSteps prev vals ws).length = vals.length := by
  induction vals with
  | nil => intro prev ws _; cases ws <;> rfl
  | cons v vs ih =>
    intro prev ws h
    cases ws with
    | nil => simp at h
    | cons c ns =>
      show (mkSteps c vs ns).length + 1 = vs.length + 1
      rw [ih c ns (by simp only [List.length_cons] at h; omega)]

/-! ## Flush-count arithmetic -/

theorem flushedCount_ge (n : Nat) (h : 64 ≤ n) :
    32 ≤ n - flushedCount n ∧ n - flushedCount n ≤ 63 ∧ 32 ≤ flushedCount n := by
  unfold flushedCount
  rw [if_neg (by omega)]
  omega

theorem flushedCount_succ_stay (n : Nat) (h : 64 ≤ n)
    (h2 : n + 1 - flushedCount n < 64) : flushedCount (n + 1) = flushedCount n := by
  unfold flushedCount at h2 ⊢
  rw [if_neg (by omega)] at h2
  rw [if_neg (by omega), if_neg (by omega)]
  omega

theorem flushedCount_succ_flush (n : Nat) (h : 64 ≤ n)
    (h2 : n + 1 - flushedCount n = 64) :
    flushedCount (n + 1) = flushedCount n + 32 := by
  unfold flushedCount at h2 ⊢
  rw [if_neg (by omega)] at h2
  rw [if_neg (by omega), if_neg (by omega)]
  omega

/-! ## Prefix stability of the plan -/

theorem plan_take_agree (v w : List Nat) (p : Nat)
    (hv : ∀ x ∈ v, x < 2 ^ 32) (hw : ∀ x ∈ w, x < 2 ^ 32)
    (hp : p + 32 ≤ v.length) :
    (planW (v ++ w)).getD p 0 = (planW v).getD p 0 := by
  have hsplit := numBitsFwd_append v w 0
  simp only [planW, ComputeNumBits]
  rw [numBitsBwd_getD_maxChain, numBitsBwd_getD_maxChain, hsplit,
    List.drop_append_of_le_length (by simp; omega), maxChain_append]
  have hseed : (numBitsFwd 0 v).getLastD 0 ≤ 32 := by
    by_cases hemp : numBitsFwd 0 v = []
    · rw [hemp]; simp
    · rw [getLastD_eq_getD _ hemp 0]
      have hl : (numBitsFwd 0 v).length - 1 < (numBitsFwd 0 v).length := by
        have := List.length_pos.2 hemp
        omega
      rw [List.getD_eq_getElem _ 0 hl]
      exact numBitsFwd_le_32 v 0 (by omega) hv _ (List.getElem_mem hl)
  have hbound : maxChain (numBitsFwd ((numBitsFwd 0 v).getLastD 0) w) ≤ 32 :=
    maxChain_le_of_forall 32 _ (numBitsFwd_le_32 w _ hseed hw)
  have hlen : ((numBitsFwd 0 v).drop p).length = v.length - p := by simp
  omega

/-- C4 (code bug): `ReverseUintStream::Read` is claimed to return `false`
whenever any bit-source read it performs — including the `h`-bit field of a
zero-run code — would pass the end of the buffer.  On the single byte `0x80`
(prelude width 0, then unary `0,0,1` giving `h = 2` with no bits left), the
`h`-bit field read fails (`readBits 2 [] = none`), but because the source
ignores that read's return value, `Read` still succeeds and returns the
value 0. -/
theorem C4_unchecked_field_read :
    mkRUState [128] = some ⟨[false, false, true], 0, 0, -1⟩ ∧
    readUnary [false, false, true] 0 = some (2, []) ∧
    readBits 2 [] = none ∧
    RUState.Read ⟨[false, false, true], 0, 0, -1⟩ = some (0, ⟨[], 0, 0, 2⟩) := by
  decide

/-! ## Claim C5 -/

/-- C5 (counterexample): the planner does *not* produce `w = [1,1,1]` for the
input `[1, 0, 1]` — the backward pass `max(0, 1 - 1) = 0` leaves the middle
width at 0. -/
theorem C5_counterexample : ¬ ComputeNumBits 0 [1, 0, 1] = [1, 1, 1] := by
  decide

/-- C5 (amended): for the input `[1, 0, 1]` the planner produces
`w = [1, 0, 1]`; the middle symbol has width 0 and is encoded by the
single-bit zero-run code `zrunCode 1 = [true]` emitted just before the
third symbol's code — no value bit is emitted for it — and decoding
returns `[1, 0, 1]`. -/
theorem C5_amended :
    ComputeNumBits 0 [1, 0, 1] = [1, 0, 1] ∧
    (encodeAll [1, 0, 1]).bits =
      padBits (preludeBits 1 ++ stepCode ⟨1, 1, 0, 1⟩ ++ zrunCode 1 ++
        stepCode ⟨0, 1, 1, 1⟩) ∧
    zrunCode 1 = [true] ∧
    (mkRUState (encodeAll [1, 0, 1]).Code).bind (readMany 3) =
      some ([1, 0, 1], ⟨List.replicate 7 false, 1, 1, -1⟩) := by
  decide

/-! ## Claim C9 -/

/-- C9 (counterexample): encoding the single value 5 does not produce the
byte `0x0B` the claim asserts. -/
theorem C9_counterexample : ¬ (encodeAll [5]).Code = [11] := by decide

/-- C9 (amended): encoding `[5]` produces exactly 8 bits — the 5-bit prelude
holding 3 (`1,1,0,0,0` LSB-first), the 1-bit stay delta code `0`, and the
2 TBR-shortened value bits `1,0` — and assembling them LSB-first into bit
positions 0..7 yields the single byte `0b01000011 = 0x43`. -/
theorem C9_amended :
    (encodeAll [5]).bits =
      [true, true, false, false, false, false, true, false] ∧
    (encodeAll [5]).bits = padBits (preludeBits 3 ++ stepCode ⟨3, 3, 3, 5⟩) ∧
    (encodeAll [5]).Code = [67] := by
  decide

theorem headD_append (a b : List Nat) (h : a ≠ []) : (a ++ b).headD 0 = a.headD 0 := by
  cases a with
  | nil => exact absurd rfl h
  | cons x r => rfl

theorem getLastD_drop (l : List Nat) (k : Nat) (h : k < l.length) :
    (l.drop k).getLastD 0 = l.getLastD 0 := by
  have hne : l.drop k ≠ [] := List.ne_nil_of_length_pos (by simp; omega)
  have hne2 : l ≠ [] := List.ne_nil_of_length_pos (by omega)
  rw [getLastD_eq_getD _ hne 0, getLastD_eq_getD _ hne2 0, getD_drop]
  simp only [List.length_drop]
  rw [show k + (l.length - k - 1) = l.length - 1 by omega]

theorem planW_take_agree (v w : List Nat) (q : Nat)
    (hv : ∀ x ∈ v, x < 2 ^ 32) (hw : ∀ x ∈ w, x < 2 ^ 32) (hq : q + 32 ≤ v.length) :
    (planW (v ++ w)).take (q + 1) = (planW v).take (q + 1) := by
  apply List.ext_getElem
  · simp only [List.length_take, planW, computeNumBits_length, List.length_append]
    omega
  · intro i h1 h2
    rw [← List.getD_eq_getElem _ 0 h1, ← List.getD_eq_getElem _ 0 h2]
    have hi : i < q + 1 := by
      simp only [List.length_take] at h1
      omega
    rw [getD_take _ _ i hi, getD_take _ _ i hi]
    exact plan_take_agree v w i hv hw (by omega)

theorem steps_take_agree (v w : List Nat) (k : Nat)
    (hv : ∀ x ∈ v, x < 2 ^ 32) (hw : ∀ x ∈ w, x < 2 ^ 32)
    (hk : k + 32 ≤ v.length) :
    mkSteps ((planW (v ++ w)).headD 0) ((v ++ w).take k) (planW (v ++ w)) =
      mkSteps ((planW v).headD 0) (v.take k) (planW v) := by
  rw [List.take_append_of_le_length (by omega)]
  have hlen : (v.take k).length = k := by simp; omega
  have hh : (planW (v ++ w)).headD 0 = (planW v).headD 0 := by
    rw [headD_eq_getD, headD_eq_getD]
    exact plan_take_agree v w 0 hv hw (by omega)
  calc mkSteps ((planW (v ++ w)).headD 0) (v.take k) (planW (v ++ w))
      = mkSteps ((planW (v ++ w)).headD 0) (v.take k)
          ((planW (v ++ w)).take ((v.take k).length + 1)) :=
        (mkSteps_take_widths _ _ _).symm
    _ = mkSteps ((planW v).headD 0) (v.take k)
          ((planW v).take ((v.take k).length + 1)) := by
        rw [hlen, planW_take_agree v w k hv hw hk, hh]
    _ = mkSteps ((planW v).headD 0) (v.take k) (planW v) :=
        mkSteps_take_widths _ _ _

theorem Write_stateSpec (v : List Nat) (x : Nat) (hv : ∀ y ∈ v, y < 2 ^ 32)
    (hx : x < 2 ^ 32) :
    UintStream.Write x (stateSpec v) = stateSpec (v ++ [x]) := by
  have hx32 : ∀ y ∈ [x], y < 2 ^ 32 := by simpa using hx
  by_cases hA : v.length + 1 < 64
  · rw [show stateSpec v = ⟨v, 0, [], false, false, 0, []⟩ from by
      unfold stateSpec; rw [if_pos (by omega)]]
    rw [show stateSpec (v ++ [x]) = ⟨v ++ [x], 0, [], false, false, 0, []⟩ from by
      unfold stateSpec; rw [if_pos (by simp; omega)]]
    unfold UintStream.Write
    simp only []
    rw [if_neg (by simp; omega)]
  by_cases hB : v.length + 1 = 64
  · rw [show stateSpec v = ⟨v, 0, [], false, false, 0, []⟩ from by
      unfold stateSpec; rw [if_pos (by omega)]]
    unfold UintStream.Write
    simp only []
    rw [if_pos (by simp; omega)]
    unfold FlushSome
    simp only [writePrelude_eq, writeSteps_eq]
    have h64 : (v ++ [x]).length = 64 := by simp; omega
    simp only [h64]
    norm_num
    unfold stateSpec
    rw [if_neg (by rw [h64]; omega)]
    simp only [h64]
    norm_num [flushedCount, planW]
  -- case C: v.length ≥ 64
  have h64 : 64 ≤ v.length := by omega
  have hkb := flushedCount_ge v.length h64
  have hk32 : 32 ≤ flushedCount v.length := hkb.2.2
  have hnk1 : 32 ≤ v.length - flushedCount v.length := hkb.1
  have hnk2 : v.length - flushedCount v.length ≤ 63 := hkb.2.1
  rw [show stateSpec v = ⟨v.drop (flushedCount v.length),
      (planW v).getD (flushedCount v.length - 1) 0,
      preludeBits ((planW v).headD 0) ++
        NFenc 0 (mkSteps ((planW v).headD 0) (v.take (flushedCount v.length)) (planW v)),
      true, false,
      trailingP 0 (mkSteps ((planW v).headD 0) (v.take (flushedCount v.length)) (planW v)),
      mkSteps ((planW v).headD 0) (v.take (flushedCount v.length)) (planW v)⟩ from by
    unfold stateSpec; rw [if_neg (by omega)]]
  have hsteps := steps_take_agree v [x] (flushedCount v.length) hv hx32 (by omega)
  have hmrb := plan_take_agree v [x] (flushedCount v.length - 1) hv hx32 (by omega)
  have hhead : (planW (v ++ [x])).headD 0 = (planW v).headD 0 := by
    rw [headD_eq_getD, headD_eq_getD]
    exact plan_take_agree v [x] 0 hv hx32 (by omega)
  have hbuf : (v ++ [x]).drop (flushedCount v.length) =
      v.drop (flushedCount v.length) ++ [x] :=
    List.drop_append_of_le_length (by omega)
  rw [hhead] at hsteps
  by_cases hC : v.length + 1 - flushedCount v.length < 64
  · -- C1: no flush triggered
    unfold UintStream.Write
    simp only []
    rw [if_neg (by simp; omega)]
    unfold stateSpec
    rw [if_neg (by simp; omega)]
    have hk' : flushedCount ((v ++ [x]).length) = flushedCount v.length := by
      rw [show (v ++ [x]).length = v.length + 1 by simp]
      exact flushedCount_succ_stay _ h64 (by omega)
    simp only [hk', hsteps, hmrb, hhead, hbuf]
  · -- C2: flush triggered
    have hC2 : v.length + 1 - flushedCount v.length = 64 := by omega
    unfold UintStream.Write
    simp only []
    rw [if_pos (by simp; omega)]
    unfold FlushSome
    have hlenB : (v.drop (flushedCount v.length) ++ [x]).length = 64 := by
      simp
      omega
    simp only [writeSteps_eq, hlenB]
    rw [if_neg (show ¬ (64:Nat) = 0 by omega),
      if_neg (show ¬ (32:Nat) = 64 by omega), if_pos trivial]
    rw [show v.drop (flushedCount v.length) ++ [x] =
      (v ++ [x]).drop (flushedCount v.length) from hbuf.symm]
    rw [show (planW v).getD (flushedCount v.length - 1) 0 =
      (planW (v ++ [x])).getD (flushedCount v.length - 1) 0 from hmrb.symm]
    rw [plan_drop_agree (v ++ [x]) (flushedCount v.length) (by omega) (by simp; omega)]
    unfold stateSpec
    rw [if_neg (by simp; omega)]
    have hk' : flushedCount ((v ++ [x]).length) = flushedCount v.length + 32 := by
      rw [show (v ++ [x]).length = v.length + 1 by simp]
      exact flushedCount_succ_flush _ h64 (by omega)
    simp only [hk']
    have htklen : ((v ++ [x]).take (flushedCount v.length)).length =
        flushedCount v.length := by simp; omega
    have hsplit : mkSteps ((planW (v ++ [x])).headD 0)
        ((v ++ [x]).take (flushedCount v.length + 32)) (planW (v ++ [x])) =
      mkSteps ((planW (v ++ [x])).headD 0)
          ((v ++ [x]).take (flushedCount v.length)) (planW (v ++ [x])) ++
        mkSteps ((planW (v ++ [x])).getD (flushedCount v.length - 1) 0)
          (((v ++ [x]).drop (flushedCount v.length)).take 32)
          ((planW (v ++ [x])).drop (flushedCount v.length)) := by
      rw [List.take_add, mkSteps_append]
      rw [if_neg (by
        intro hz
        have hzz := congrArg List.length hz
        rw [htklen] at hzz
        simp at hzz
        omega)]
      rw [htklen]
    rw [hsplit, hhead, hsteps, NFenc_append, trailingP_append]
    have hmrb2 : ((planW (v ++ [x])).drop (flushedCount v.length)).getD (32 - 1) 0 =
        (planW (v ++ [x])).getD (flushedCount v.length + 32 - 1) 0 := by
      rw [getD_drop]
      rw [show flushedCount v.length + (32 - 1) = flushedCount v.length + 32 - 1 by omega]
    rw [hmrb2]
    have hbuf2 : List.drop 32 ((v ++ [x]).drop (flushedCount v.length)) =
        (v ++ [x]).drop (flushedCount v.length + 32) := by
      rw [List.drop_drop]
    rw [hbuf2]
    simp [List.append_assoc]


theorem mkSteps_widths_append_extra (prev : Nat) (vals ws extra : List Nat)
    (h : vals.length + 1 ≤ ws.length) :
    mkSteps prev vals (ws ++ extra) = mkSteps prev vals ws := by
  calc mkSteps prev vals (ws ++ extra)
      = mkSteps prev vals ((ws ++ extra).take (vals.length + 1)) :=
        (mkSteps_take_widths vals prev (ws ++ extra)).symm
    _ = mkSteps prev vals (ws.take (vals.length + 1)) := by
        rw [List.take_append_of_le_length h]
    _ = mkSteps prev vals ws := mkSteps_take_widths vals prev ws

theorem writeAll_stateSpec (v : List Nat) (hv : ∀ y ∈ v, y < 2 ^ 32) :
    writeAll v UintStream.init = stateSpec v := by
  induction v using List.reverseRecOn with
  | nil => rfl
  | append_singleton w x ih =>
    have hw : ∀ y ∈ w, y < 2 ^ 32 := fun y hy => hv y (by simp [hy])
    have hx : x < 2 ^ 32 := hv x (by simp)
    have ih' := ih hw
    unfold writeAll at ih' ⊢
    rw [List.foldl_append]
    simp only [List.foldl_cons, List.foldl_nil]
    rw [ih']
    exact Write_stateSpec w x hw hx

theorem encodeAll_eq (v : List Nat) (hv : ∀ y ∈ v, y < 2 ^ 32) (hne : v ≠ []) :
    (encodeAll v).bits =
      padBits (preludeBits ((planW v).headD 0) ++ NFfull (cstepsOf v)) ∧
    (encodeAll v).trace = cstepsOf v := by
  have hlenW : (planW v).length = v.length := computeNumBits_length 0 v
  have hvpos : 0 < v.length := List.length_pos.mpr hne
  have hWne : planW v ≠ [] := List.ne_nil_of_length_pos (by omega)
  unfold encodeAll
  rw [writeAll_stateSpec v hv]
  by_cases hlen : v.length < 64
  · -- everything is still buffered; the final Flush drains it in one go
    unfold UintStream.Flush stateSpec FlushSome
    rw [if_pos hlen]
    simp only [writeSteps_eq]
    rw [if_neg (show ¬ (v.length = 0) by omega), if_pos trivial,
      if_neg (show ¬ (false = true) by simp), writePrelude_eq, List.take_length]
    have hhead : ((planW v) ++ [(planW v).getLastD 0]).headD 0 = (planW v).headD 0 :=
      headD_append _ _ hWne
    have hW : ComputeNumBits 0 v = planW v := rfl
    rw [hW, hhead]
    have hsteps : mkSteps ((planW v).headD 0) v (planW v ++ [(planW v).getLastD 0]) =
        cstepsOf v := rfl
    rw [hsteps]
    unfold NFfull
    by_cases hp : trailingP 0 (cstepsOf v) ≠ 0
    · rw [if_pos hp, FlushPendingZeros_eq, if_pos hp]
      constructor
      · simp [List.append_assoc]
      · rfl
    · rw [if_neg hp, if_neg hp]
      constructor
      · simp [List.append_assoc]
      · rfl
  · -- a final partial flush follows the in-stream flushes
    have h64 : 64 ≤ v.length := by omega
    obtain ⟨hnk1, hnk2, hk32⟩ := flushedCount_ge v.length h64
    have hkle : flushedCount v.length ≤ v.length := by omega
    have hklt : flushedCount v.length < v.length := by omega
    unfold UintStream.Flush stateSpec FlushSome
    rw [if_neg (by omega)]
    simp only [writeSteps_eq]
    rw [if_neg (show ¬ ((List.drop (flushedCount v.length) v).length = 0) by
        simp
        omega),
      if_pos trivial, List.take_length]
    simp only [reduceIte]
    rw [plan_drop_agree v (flushedCount v.length) (by omega) hkle]
    rw [getLastD_drop (planW v) (flushedCount v.length) (by omega)]
    have hsplit : cstepsOf v =
        mkSteps ((planW v).headD 0) (v.take (flushedCount v.length)) (planW v) ++
          mkSteps ((planW v).getD (flushedCount v.length - 1) 0)
            (v.drop (flushedCount v.length))
            ((planW v).drop (flushedCount v.length) ++ [(planW v).getLastD 0]) := by
      unfold cstepsOf ghostW
      conv_lhs =>
        arg 2
        rw [(List.take_append_drop (flushedCount v.length) v).symm]
      rw [mkSteps_append]
      rw [if_neg (List.ne_nil_of_length_pos (l := v.take (flushedCount v.length)) (by
        simp
        omega))]
      have hlt : (v.take (flushedCount v.length)).length = flushedCount v.length := by
        simp
        omega
      rw [hlt]
      rw [List.getD_append _ _ 0 _ (by omega)]
      rw [List.drop_append_of_le_length (by omega)]
      rw [mkSteps_widths_append_extra _ _ _ _ (by
        rw [hlt]
        omega)]
    rw [hsplit]
    unfold NFfull
    rw [NFenc_append, trailingP_append]
    by_cases hp : trailingP (trailingP 0 (mkSteps ((planW v).headD 0)
        (v.take (flushedCount v.length)) (planW v)))
        (mkSteps ((planW v).getD (flushedCount v.length - 1) 0)
          (v.drop (flushedCount v.length))
          ((planW v).drop (flushedCount v.length) ++ [(planW v).getLastD 0])) ≠ 0
    · rw [if_pos hp, FlushPendingZeros_eq, if_pos hp]
      constructor
      · simp [List.append_assoc]
      · rfl
    · rw [if_neg hp, if_neg hp]
      constructor
      · simp [List.append_assoc]
      · rfl


/-! ## Decoder: zero runs -/

theorem wrapI_eq_self (z : Int) (h1 : -(2 ^ 31) ≤ z) (h2 : z < 2 ^ 31) :
    wrapI z = z := by
  unfold wrapI
  omega

theorem readMany_add (a b : Nat) : ∀ d : RUState,
    readMany (a + b) d = (readMany a d).bind fun p =>
      (readMany b p.2).map fun q => (p.1 ++ q.1, q.2) := by
  induction a with
  | zero =>
    intro d
    rw [Nat.zero_add]
    cases h : readMany b d <;> simp [readMany, h]
  | succ a ih =>
    intro d
    rw [show a + 1 + b = (a + b) + 1 by omega]
    cases hr : d.Read with
    | none => simp [readMany, hr]
    | some p =>
      simp only [readMany, hr, Option.some_bind]
      rw [ih p.2]
      cases h1 : readMany a p.2 with
      | none => simp
      | some q =>
        cases h2 : readMany b q.2 with
        | none => simp [h2]
        | some r => simp [h2]

theorem readUnary_false_none (j : Nat) : ∀ a, readUnary (List.replicate j false) a = none := by
  induction j with
  | zero => intro a; rfl
  | succ j ih =>
    intro a
    rw [List.replicate_succ]
    by_cases h : 31 < a
    · simp [readUnary, h]
    · simp [readUnary, h, ih]

/-- Decoding the tail of a zero run: with `zero_runlength_ = t`, the next
`t + 1` reads return zeros without consuming bits, ending with
`cur_num_bits_ = 1` and `zero_runlength_ = -1`. -/
theorem readRunTail (t : Nat) : ∀ bs : List Bool,
    readMany (t + 1) ⟨bs, 0, 0, (t : Int)⟩ =
      some (List.replicate (t + 1) 0, ⟨bs, 0, 1, -1⟩) := by
  induction t with
  | zero =>
    intro bs
    simp [readMany, RUState.Read, readBits]
  | succ t ih =>
    intro bs
    have hz : ((t + 1 : Nat) : Int) - 1 = (t : Int) := by push_cast; ring
    have hc1 : ¬ ((0 : Int) ≠ 0) := by norm_num
    have hc2 : (0 : Int) ≤ ((t + 1 : Nat) : Int) := by positivity
    have hc3 : ¬ (((t + 1 : Nat) : Int) = 0) := by push_cast; omega
    have hread : RUState.Read ⟨bs, 0, 0, ((t + 1 : Nat) : Int)⟩ =
        some (0, ⟨bs, 0, 0, ((t + 1 : Nat) : Int) - 1⟩) := by
      simp only [RUState.Read]
      rw [if_neg hc1, if_pos hc2, if_neg hc3, if_neg (by norm_num)]
      simp [readBits]
    rw [hz] at hread
    show (RUState.Read ⟨bs, 0, 0, ((t + 1 : Nat) : Int)⟩).bind
        (fun p => (readMany (t + 1) p.2).map fun q => (p.1 :: q.1, q.2)) =
      some (List.replicate (t + 1 + 1) 0, ⟨bs, 0, 1, -1⟩)
    rw [hread]
    simp only [Option.some_bind]
    rw [ih bs]
    simp [List.replicate_succ]


theorem zrunCode_length (k : Nat) :
    (zrunCode k).length = 2 * (num_bits k - 1) + 1 := by
  unfold zrunCode
  rw [List.length_append, toBits_length, toBits_length]
  omega

/-- Decoding a whole zero-run code: `m` reads return `m` zeros, consume
exactly the `zrunCode m` bits, and leave `cur_num_bits_ = 1`,
`zero_runlength_ = -1`. -/
theorem readRunTail_ge_one (t : Nat) (h : 1 ≤ t) (bs : List Bool) :
    readMany t ⟨bs, 0, 0, (t : Int) - 1⟩ =
      some (List.replicate t 0, ⟨bs, 0, 1, -1⟩) := by
  obtain ⟨u, rfl⟩ : ∃ u, t = u + 1 := ⟨t - 1, by omega⟩
  have hz : ((u + 1 : Nat) : Int) - 1 = (u : Int) := by push_cast; ring
  rw [hz]
  exact readRunTail u bs

theorem readMany_one (d : RUState) : readMany 1 d = d.Read.map fun p => ([p.1], p.2) := by
  cases h : d.Read <;> simp [readMany, h]

theorem readRun (m : Nat) (h1 : 1 ≤ m) (h2 : m < 2 ^ 31) (p : Int) (bs : List Bool) :
    readMany m ⟨zrunCode m ++ bs, p, 0, -1⟩ =
      some (List.replicate m 0, ⟨bs, 0, 1, -1⟩) := by
  have hnb31 : num_bits m ≤ 31 := (num_bits_le_iff 31 m).mpr (by omega)
  have hnb1 : 1 ≤ num_bits m := by
    rcases Nat.eq_zero_or_pos (num_bits m) with h | h
    · rw [num_bits_eq_zero_iff] at h; omega
    · omega
  have hsplit : 2 ^ (num_bits m - 1) + m % 2 ^ (num_bits m - 1) = m :=
    num_bits_split m (by omega)
  have hbits : zrunCode m ++ bs =
      List.replicate (num_bits m - 1) false ++ [true] ++
        (toBits (num_bits m - 1) (m % 2 ^ (num_bits m - 1)) ++ bs) := by
    unfold zrunCode
    rw [toBits_two_pow]
    simp [List.append_assoc]
  have hu : readUnary (zrunCode m ++ bs) 0 =
      some (num_bits m - 1, toBits (num_bits m - 1) (m % 2 ^ (num_bits m - 1)) ++ bs) := by
    rw [hbits]
    exact readUnary_replicate _ (by omega) _
  have hx : readBits (num_bits m - 1)
      (toBits (num_bits m - 1) (m % 2 ^ (num_bits m - 1)) ++ bs) =
      some (m % 2 ^ (num_bits m - 1), bs) := by
    rw [readBits_toBits, Nat.mod_mod_of_dvd _ dvd_rfl]
  have hW : wrapI ((2 : Int) ^ (num_bits m - 1) + (m : Int) % (2 : Int) ^ (num_bits m - 1)) =
      (m : Int) := by
    have hmod : (m : Int) % (2 : Int) ^ (num_bits m - 1) =
        ((m % 2 ^ (num_bits m - 1) : Nat) : Int) := by
      push_cast
      ring
    have hpow : ((2 : Int) ^ (num_bits m - 1)) = ((2 ^ (num_bits m - 1) : Nat) : Int) := by
      push_cast
      ring
    rw [hmod, hpow, ← Nat.cast_add, hsplit]
    exact wrapI_eq_self _ (by omega) (by omega)
  have hwrap2 : wrapI ((m : Int) - 2) = (m : Int) - 2 :=
    wrapI_eq_self _ (by omega) (by omega)
  have hread : RUState.Read ⟨zrunCode m ++ bs, p, 0, -1⟩ =
      some (0, ⟨bs, 0, (if (m : Int) = 1 then 1 else 0), (m : Int) - 2⟩) := by
    simp only [RUState.Read]
    rw [if_neg (by norm_num), if_neg (by norm_num)]
    rw [hu]
    simp only [Option.some_bind, hx, Option.getD_some]
    rw [if_neg (by norm_num)]
    simp [readBits, hW, hwrap2]
  obtain ⟨L, hL⟩ : ∃ L, L = zrunCode m ++ bs := ⟨_, rfl⟩
  rw [← hL] at hread ⊢
  rcases eq_or_lt_of_le h1 with he | hm2
  · rw [← he] at hread ⊢
    rw [readMany_one, hread]
    norm_num
  · have hm1 : ¬ ((m : Int) = 1) := by omega
    rw [if_neg hm1] at hread
    rw [show m = 1 + (m - 1) by omega, readMany_add 1 (m - 1), readMany_one, hread]
    simp only [Option.map_some', Option.some_bind]
    rw [show ((m : Int) - 2) = ((m - 1 : Nat) : Int) - 1 by omega]
    rw [readRunTail_ge_one (m - 1) (by omega) bs]
    simp [List.replicate_add]


/-! ## Decoder: nonzero-width symbols -/

theorem readBits_cons_true (r : List Bool) : readBits 1 (true :: r) = some (1, r) := by
  simp [readBits]

theorem readBits_cons_false (r : List Bool) : readBits 1 (false :: r) = some (0, r) := by
  simp [readBits]

/-- Decoding one nonzero-width symbol: the width-delta code announces `next`,
the value field (TBR-shortened when applicable) reads back as the value, and
the decoder state advances to `prev = cur`, `cur = next`. -/
theorem readSym (st : Step) (hok : stepOk st) (hc : st.cur ≠ 0) (bs : List Bool) :
    RUState.Read ⟨stepCode st ++ bs, (st.prev : Int), (st.cur : Int), -1⟩ =
      some (st.val, ⟨bs, (st.cur : Int), (st.next : Int), -1⟩) := by
  obtain ⟨hc32, hn32, hs1, hs2, hnb, htbr⟩ := hok
  have hcpos : (0 : Int) < (st.cur : Int) := by omega
  have hcne : ((st.cur : Int)) ≠ 0 := by omega
  have hval : st.val < 2 ^ st.cur := (num_bits_le_iff _ _).mp hnb
  by_cases h1 : st.next = st.cur + 1
  · -- width goes up: delta code [1,1], never TBR
    have henc : stepCode st ++ bs = true :: true :: (toBits st.cur st.val ++ bs) := by
      unfold stepCode
      rw [if_pos h1, if_neg (by intro hcon; omega)]
      simp [toBits]
    rw [henc]
    simp only [RUState.Read]
    rw [if_pos hcne, readBits_cons_true]
    simp only [Option.some_bind]
    rw [if_neg (by norm_num : ¬ (1 : Nat) = 0), readBits_cons_true]
    simp only [Option.some_bind]
    rw [if_pos (by norm_num : (1 : Nat) ≠ 0)]
    rw [if_neg (show ¬ (32 : Int) < (st.cur : Int) + 1 by omega)]
    rw [if_neg (show ¬ ((st.prev : Int) ≤ (st.cur : Int) ∧
        (st.cur : Int) + 1 ≤ (st.cur : Int) ∧ (0 : Int) < (st.cur : Int)) by
      intro hcon
      omega)]
    rw [Int.toNat_natCast, readBits_toBits]
    simp only [Option.map_some']
    rw [Nat.mod_eq_of_lt hval, show ((st.next : Nat) : Int) = (st.cur : Int) + 1 by omega]
  · by_cases h2 : st.next + 1 = st.cur
    · -- width goes down: delta code [1,0]
      have hnxt : ((st.next : Nat) : Int) = (st.cur : Int) - 1 := by omega
      by_cases hp : st.prev ≤ st.cur
      · -- TBR: the top bit of the value was elided
        have hnbv : num_bits st.val = st.cur := htbr ⟨hp, by omega, by omega⟩
        have henc : stepCode st ++ bs =
            true :: false :: (toBits (st.cur - 1) (st.val ^^^ 2 ^ (st.cur - 1)) ++ bs) := by
          unfold stepCode
          rw [if_neg h1, if_pos h2, if_pos ⟨hp, by omega, by omega⟩]
          simp [toBits]
        rw [henc]
        simp only [RUState.Read]
        rw [if_pos hcne, readBits_cons_true]
        simp only [Option.some_bind]
        rw [if_neg (by norm_num : ¬ (1 : Nat) = 0), readBits_cons_false]
        simp only [Option.some_bind]
        rw [if_neg (by norm_num : ¬ ((0 : Nat) ≠ 0))]
        rw [if_neg (show ¬ ((st.cur : Int) - 1 < 0) by omega)]
        rw [if_pos ⟨by exact_mod_cast hp, by omega, hcpos⟩]
        rw [show ((st.cur : Int) - 1).toNat = st.cur - 1 by omega]
        rw [readBits_toBits]
        simp only [Option.map_some']
        rw [top_bit_restore st.cur st.val (by omega) hnbv, hnxt]
      · -- no TBR: plain `cur`-bit value field
        have henc : stepCode st ++ bs =
            true :: false :: (toBits st.cur st.val ++ bs) := by
          unfold stepCode
          rw [if_neg h1, if_pos h2, if_neg (by intro hcon; exact hp hcon.1)]
          simp [toBits]
        rw [henc]
        simp only [RUState.Read]
        rw [if_pos hcne, readBits_cons_true]
        simp only [Option.some_bind]
        rw [if_neg (by norm_num : ¬ (1 : Nat) = 0), readBits_cons_false]
        simp only [Option.some_bind]
        rw [if_neg (by norm_num : ¬ ((0 : Nat) ≠ 0))]
        rw [if_neg (show ¬ ((st.cur : Int) - 1 < 0) by omega)]
        rw [if_neg (show ¬ ((st.prev : Int) ≤ (st.cur : Int) ∧
            (st.cur : Int) - 1 ≤ (st.cur : Int) ∧ (0 : Int) < (st.cur : Int)) by
          intro hcon
          exact hp (by exact_mod_cast hcon.1))]
        rw [Int.toNat_natCast, readBits_toBits]
        simp only [Option.map_some']
        rw [Nat.mod_eq_of_lt hval, hnxt]
    · -- width stays: delta code [0]
      have hnc : st.next = st.cur := by omega
      have hnxt : ((st.next : Nat) : Int) = (st.cur : Int) := by omega
      by_cases hp : st.prev ≤ st.cur
      · have hnbv : num_bits st.val = st.cur := htbr ⟨hp, by omega, by omega⟩
        have henc : stepCode st ++ bs =
            false :: (toBits (st.cur - 1) (st.val ^^^ 2 ^ (st.cur - 1)) ++ bs) := by
          unfold stepCode
          rw [if_neg h1, if_neg h2, if_pos ⟨hp, by omega, by omega⟩]
          simp [toBits]
        rw [henc]
        simp only [RUState.Read]
        rw [if_pos hcne, readBits_cons_false]
        simp only [Option.some_bind]
        rw [if_pos trivial]
        rw [if_pos ⟨by exact_mod_cast hp, by omega, hcpos⟩]
        rw [show ((st.cur : Int) - 1).toNat = st.cur - 1 by omega]
        rw [readBits_toBits]
        simp only [Option.map_some']
        rw [top_bit_restore st.cur st.val (by omega) hnbv, hnxt]
      · have henc : stepCode st ++ bs =
            false :: (toBits st.cur st.val ++ bs) := by
          unfold stepCode
          rw [if_neg h1, if_neg h2, if_neg (by intro hcon; exact hp hcon.1)]
          simp [toBits]
        rw [henc]
        simp only [RUState.Read]
        rw [if_pos hcne, readBits_cons_false]
        simp only [Option.some_bind]
        rw [if_pos trivial]
        rw [if_neg (show ¬ ((st.prev : Int) ≤ (st.cur : Int) ∧
            (st.cur : Int) ≤ (st.cur : Int) ∧ (0 : Int) < (st.cur : Int)) by
          intro hcon
          exact hp (by exact_mod_cast hcon.1))]
        rw [Int.toNat_natCast, readBits_toBits]
        simp only [Option.map_some']
        rw [Nat.mod_eq_of_lt hval, hnxt]



/-! ## Step chains and zero-run structure -/

theorem chainOk_tail (st : Step) (l : List Step) (h : chainOk (st :: l)) : chainOk l := by
  cases l with
  | nil => trivial
  | cons st2 r => exact h.2.2.2

theorem chainOk_head (st : Step) (l : List Step) (h : chainOk (st :: l)) : stepOk st := by
  cases l with
  | nil => exact h
  | cons st2 r => exact h.1

theorem chainOk_suffix (a : List Step) : ∀ b, chainOk (a ++ b) → chainOk b := by
  induction a with
  | nil => intro b h; exact h
  | cons st a2 ih => intro b h; exact ih b (chainOk_tail _ _ h)

theorem chainOk_link (st st2 : Step) (l : List Step) (h : chainOk (st :: st2 :: l)) :
    st.next = st2.cur ∧ st2.prev = st.cur := ⟨h.2.1, h.2.2.1⟩

theorem step_val_zero (s : Step) (hok : stepOk s) (hc : s.cur = 0) : s.val = 0 := by
  have h := hok.2.2.2.2.1
  rw [hc, Nat.le_zero] at h
  exact (num_bits_eq_zero_iff _).mp h

theorem chainOk_forall_stepOk : ∀ l : List Step, chainOk l → ∀ s ∈ l, stepOk s := by
  intro l
  induction l with
  | nil => intro _ s hs; simp at hs
  | cons st r ih =>
    intro h s hs
    rcases List.mem_cons.mp hs with h' | h'
    · rw [h']; exact chainOk_head _ _ h
    · exact ih (chainOk_tail _ _ h) s h'

/-- Splitting off the maximal leading zero-width run. -/
theorem zeroRunSplit : ∀ (r : List Step) (st : Step), st.cur = 0 →
    ∃ (Z rest : List Step), st :: r = Z ++ rest ∧ Z ≠ [] ∧ (∀ s ∈ Z, s.cur = 0) ∧
      (rest = [] ∨ ∃ st2 r2, rest = st2 :: r2 ∧ st2.cur ≠ 0) := by
  intro r
  induction r with
  | nil => intro st h; exact ⟨[st], [], by simp, by simp, by simp [h], Or.inl rfl⟩
  | cons st2 r2 ih =>
    intro st h
    by_cases h2 : st2.cur = 0
    · obtain ⟨Z, rest, he, hne, hz, hr⟩ := ih st2 h2
      refine ⟨st :: Z, rest, by rw [List.cons_append, ← he], by simp, ?_, hr⟩
      intro s hs
      rcases List.mem_cons.mp hs with h' | h'
      · rw [h']; exact h
      · exact hz s h'
    · exact ⟨[st], st2 :: r2, rfl, by simp, by simp [h], Or.inr ⟨st2, r2, rfl, h2⟩⟩

/-- The pending-zeros counter absorbs a zero-width run (no wrap below `2^32`). -/
theorem NFenc_zeros : ∀ (Z : List Step), (∀ s ∈ Z, s.cur = 0) →
    ∀ (p : Nat) (rest : List Step), p + Z.length < 2 ^ 32 →
    NFenc p (Z ++ rest) = NFenc (p + Z.length) rest ∧
    trailingP p (Z ++ rest) = trailingP (p + Z.length) rest := by
  intro Z
  induction Z with
  | nil => intro _ p rest _; simp
  | cons z Z2 ih =>
    intro hz p rest hlt
    have hzc : z.cur = 0 := hz z (by simp)
    have hlen : (z :: Z2).length = Z2.length + 1 := by simp
    rw [hlen] at hlt
    have hmod : (p + 1) % 2 ^ 32 = p + 1 := Nat.mod_eq_of_lt (by omega)
    have ih2 := ih (fun s hs => hz s (by simp [hs])) (p + 1) rest (by omega)
    constructor
    · rw [List.cons_append, NFenc_cons, if_pos hzc, hmod, ih2.1, hlen,
        show p + 1 + Z2.length = p + (Z2.length + 1) by omega]
    · rw [List.cons_append, trailingP_cons, if_pos hzc, hmod, ih2.2, hlen,
        show p + 1 + Z2.length = p + (Z2.length + 1) by omega]

/-- Across a nonempty zero-width run, the chain forces the next nonzero
symbol to have `prev = 0` and `cur ≤ 1`. -/
theorem chain_boundary : ∀ (Z : List Step) (st2 : Step) (r2 : List Step), Z ≠ [] →
    (∀ s ∈ Z, s.cur = 0) → chainOk (Z ++ st2 :: r2) → st2.prev = 0 ∧ st2.cur ≤ 1 := by
  intro Z
  induction Z with
  | nil => intro st2 r2 h; exact absurd rfl h
  | cons z Z2 ih =>
    intro st2 r2 _ hz hch
    cases Z2 with
    | nil =>
      obtain ⟨hok, hnx, hpv, _⟩ := hch
      have hzc : z.cur = 0 := hz z (by simp)
      exact ⟨by rw [hpv, hzc], by have := hok.2.2.1; omega⟩
    | cons z2 Z3 =>
      exact ih st2 r2 (by simp) (fun s hs => hz s (by simp [hs]))
        (chainOk_tail _ _ hch)

theorem map_val_zeros (Z : List Step) (hok : ∀ s ∈ Z, stepOk s)
    (hz : ∀ s ∈ Z, s.cur = 0) : Z.map Step.val = List.replicate Z.length 0 := by
  apply List.eq_replicate.mpr
  refine ⟨by simp, ?_⟩
  intro b hb
  obtain ⟨s, hs, hsv⟩ := List.mem_map.mp hb
  rw [← hsv]
  exact step_val_zero s (hok s hs) (hz s hs)

theorem map_cur_zeros (Z : List Step) (hz : ∀ s ∈ Z, s.cur = 0) :
    Z.map Step.cur = List.replicate Z.length 0 := by
  apply List.eq_replicate.mpr
  refine ⟨by simp, ?_⟩
  intro b hb
  obtain ⟨s, hs, hsv⟩ := List.mem_map.mp hb
  rw [← hsv]
  exact hz s hs

theorem SegBound_suffix (B : Nat) (a w : List Nat) (h : SegBound B (a ++ w)) :
    SegBound B w := by
  intro a2 m b2 hw
  exact h (a ++ a2) m b2 (by rw [hw]; simp [List.append_assoc])


/-- Decoding a well-formed encoded step stream: with the decoder state seeded
from the first step's widths, reading as many symbols as there are steps
returns exactly the encoded values, whatever bits follow. -/
theorem decSteps : ∀ (n : Nat) (steps : List Step), steps.length = n → chainOk steps →
    SegBound (2 ^ 31) (steps.map Step.cur) → ∀ bs : List Bool,
    ∃ d' : RUState, readMany n ⟨NFfull steps ++ bs, hdPrev steps, hdCur steps, -1⟩ =
      some (steps.map Step.val, d') := by
  intro n
  induction n using Nat.strong_induction_on with
  | _ n ih =>
    intro steps hlen hch hseg bs
    cases steps with
    | nil =>
      rw [← hlen]
      exact ⟨_, rfl⟩
    | cons st r =>
      by_cases hcz : st.cur = 0
      · obtain ⟨Z, rest, hZr, hZne, hZzero, hrest⟩ := zeroRunSplit r st hcz
        have hZok : ∀ s ∈ Z, stepOk s := fun s hs =>
          chainOk_forall_stepOk _ hch s (by rw [hZr]; exact List.mem_append_left _ hs)
        have hm1 : 1 ≤ Z.length := by
          cases Z with
          | nil => exact absurd rfl hZne
          | cons a b => simp
        have hmB : Z.length < 2 ^ 31 := by
          apply hseg [] Z.length (rest.map Step.cur)
          rw [hZr, List.map_append, map_cur_zeros Z hZzero]
          simp
        have hcur0 : hdCur (st :: r) = 0 := by simp [hdCur, hcz]
        rcases hrest with hre | ⟨st2, r2, hre, hcnz⟩
        · -- the whole remaining stream is one zero run
          rw [hre, List.append_nil] at hZr
          have h1 := (NFenc_zeros Z hZzero 0 [] (by omega)).1
          have h2 := (NFenc_zeros Z hZzero 0 [] (by omega)).2
          rw [List.append_nil] at h1 h2
          have hNF : NFfull (st :: r) = zrunCode Z.length := by
            unfold NFfull
            rw [hZr, h1, h2]
            simp only [NFenc, trailingP, Nat.zero_add, List.nil_append]
            rw [if_pos (show Z.length ≠ 0 by omega)]
          have hnZ : Z.length = n := by
            rw [← hlen, hZr]
          refine ⟨⟨bs, 0, 1, -1⟩, ?_⟩
          rw [hNF, hcur0, ← hnZ, hZr, map_val_zeros Z hZok hZzero]
          exact readRun Z.length hm1 hmB _ _
        · -- a zero run followed by a nonzero-width symbol
          rw [hre] at hZr
          have hchZ : chainOk (Z ++ st2 :: r2) := by rw [← hZr]; exact hch
          have hch2 : chainOk (st2 :: r2) := chainOk_suffix Z _ hchZ
          have hok2 : stepOk st2 := chainOk_head _ _ hch2
          have hbd := chain_boundary Z st2 r2 hZne hZzero hchZ
          have hcur1 : st2.cur = 1 := by
            have := hbd.2
            omega
          have hlen2 : Z.length + (r2.length + 1) = n := by
            have hL := congrArg List.length hZr
            simp only [List.length_append, List.length_cons] at hL
            simp only [List.length_cons] at hlen
            omega
          have hz1 := (NFenc_zeros Z hZzero 0 (st2 :: r2) (by omega)).1
          have hz2 := (NFenc_zeros Z hZzero 0 (st2 :: r2) (by omega)).2
          simp only [Nat.zero_add] at hz1 hz2
          have hNF : NFfull (st :: r) = zrunCode Z.length ++ (stepCode st2 ++ NFfull r2) := by
            unfold NFfull
            rw [hZr, hz1, hz2, NFenc_cons, trailingP_cons, if_neg hcnz, if_neg hcnz,
              if_pos (show Z.length ≠ 0 by omega)]
            simp [List.append_assoc]
          have hsym := readSym st2 hok2 hcnz (NFfull r2 ++ bs)
          rw [hbd.1, hcur1] at hsym
          simp only [Nat.cast_zero, Nat.cast_one] at hsym
          rw [← hlen2, readMany_add Z.length (r2.length + 1), hNF, hcur0,
            List.append_assoc, readRun Z.length hm1 hmB _ _]
          simp only [Option.some_bind]
          rw [List.append_assoc, show r2.length + 1 = 1 + r2.length by omega,
            readMany_add 1 r2.length, readMany_one, hsym]
          simp only [Option.map_some', Option.some_bind]
          cases r2 with
          | nil =>
            refine ⟨⟨NFfull [] ++ bs, 1, (st2.next : Int), -1⟩, ?_⟩
            rw [hZr]
            simp [readMany, map_val_zeros Z hZok hZzero]
          | cons s3 r3 =>
            have hlink := chainOk_link st2 s3 r3 hch2
            have hseg3 : SegBound (2 ^ 31) ((s3 :: r3).map Step.cur) := by
              apply SegBound_suffix _ (Z.map Step.cur ++ [st2.cur])
              rw [show (Z.map Step.cur ++ [st2.cur]) ++ (s3 :: r3).map Step.cur =
                (st :: r).map Step.cur by rw [hZr]; simp]
              exact hseg
            obtain ⟨d3, hd3⟩ := ih (s3 :: r3).length (by omega) (s3 :: r3) rfl
              (chainOk_tail _ _ hch2) hseg3 bs
            simp only [hdPrev, hdCur] at hd3
            rw [hlink.2, ← hlink.1, hcur1] at hd3
            simp only [Nat.cast_one] at hd3
            refine ⟨d3, ?_⟩
            rw [hd3, hZr]
            simp [map_val_zeros Z hZok hZzero]
      · -- nonzero-width head symbol
        have hok := chainOk_head _ _ hch
        have hNF : NFfull (st :: r) = stepCode st ++ NFfull r := by
          unfold NFfull
          rw [NFenc_cons, trailingP_cons, if_neg hcz, if_neg hcz,
            if_neg (show ¬ ((0 : Nat) ≠ 0) by norm_num)]
          simp [List.append_assoc]
        have hsym := readSym st hok hcz (NFfull r ++ bs)
        rw [← hlen]
        simp only [List.length_cons, hdPrev, hdCur]
        rw [show r.length + 1 = 1 + r.length by omega, readMany_add 1 r.length,
          readMany_one, hNF, List.append_assoc, hsym]
        simp only [Option.map_some', Option.some_bind]
        cases r with
        | nil =>
          exact ⟨_, rfl⟩
        | cons s3 r3 =>
          have hlink := chainOk_link st s3 r3 hch
          have hseg3 : SegBound (2 ^ 31) ((s3 :: r3).map Step.cur) := by
            apply SegBound_suffix _ [st.cur]
            exact hseg
          obtain ⟨d3, hd3⟩ := ih (s3 :: r3).length (by
              simp only [List.length_cons] at hlen ⊢
              omega) (s3 :: r3) rfl
            (chainOk_tail _ _ hch) hseg3 bs
          simp only [hdPrev, hdCur] at hd3
          rw [hlink.2, ← hlink.1] at hd3
          refine ⟨d3, ?_⟩
          rw [hd3]
          simp


/-! ## The planned step sequence is a well-formed chain -/

theorem planW_le_32 (v : List Nat) (hv : ∀ y ∈ v, y < 2 ^ 32) :
    ∀ j, (planW v).getD j 0 ≤ 32 := by
  intro j
  unfold planW ComputeNumBits
  rw [numBitsBwd_getD_maxChain]
  apply maxChain_le_of_forall
  intro x hx
  exact numBitsFwd_le_32 v 0 (by omega) hv x (List.mem_of_mem_drop hx)

theorem chainOk_mkSteps : ∀ (vals ws : List Nat) (prev : Nat),
    (∀ j, j < vals.length → stepOk ⟨(if j = 0 then prev else ws.getD (j-1) 0),
      ws.getD j 0, ws.getD (j+1) 0, vals.getD j 0⟩) →
    chainOk (mkSteps prev vals ws) := by
  intro vals
  induction vals with
  | nil =>
    intro ws prev _
    cases ws <;> trivial
  | cons v vs ih =>
    intro ws prev hstep
    cases ws with
    | nil => trivial
    | cons c ns =>
      have hok0 : stepOk ⟨prev, c, ns.headD 0, v⟩ := by
        have h0 := hstep 0 (by simp)
        rw [if_pos rfl] at h0
        rw [headD_eq_getD]
        exact h0
      have hrest : chainOk (mkSteps c vs ns) := by
        apply ih ns c
        intro j hj
        have hs := hstep (j+1) (by simp; omega)
        cases j with
        | zero => simpa using hs
        | succ j2 => simpa using hs
      cases vs with
      | nil => exact hok0
      | cons v2 vs2 =>
        cases ns with
        | nil => exact hok0
        | cons c2 ns2 => exact ⟨hok0, rfl, rfl, hrest⟩

theorem mkSteps_map_cur : ∀ (vals ws : List Nat) (prev : Nat), vals.length ≤ ws.length →
    (mkSteps prev vals ws).map Step.cur = ws.take vals.length := by
  intro vals
  induction vals with
  | nil => intro ws prev _; cases ws <;> rfl
  | cons v vs ih =>
    intro ws prev h
    cases ws with
    | nil => simp at h
    | cons c ns =>
      show c :: (mkSteps c vs ns).map Step.cur = c :: ns.take vs.length
      rw [ih ns c (by simp at h; omega)]

theorem map_cur_cstepsOf (v : List Nat) : (cstepsOf v).map Step.cur = planW v := by
  have hlenW : (planW v).length = v.length := computeNumBits_length 0 v
  unfold cstepsOf ghostW
  rw [mkSteps_map_cur _ _ _ (by rw [List.length_append, hlenW]; simp)]
  rw [List.take_append_of_le_length (by omega), ← hlenW, List.take_length]

theorem map_val_cstepsOf (v : List Nat) : (cstepsOf v).map Step.val = v := by
  have hlenW : (planW v).length = v.length := computeNumBits_length 0 v
  unfold cstepsOf
  apply mkSteps_map_val
  unfold ghostW
  rw [List.length_append, hlenW]
  simp

theorem SegBound_of_short (B : Nat) (w : List Nat) (h : w.length < B) : SegBound B w := by
  intro a m b hw
  have hl := congrArg List.length hw
  simp at hl
  omega

theorem chainOk_cstepsOf (v : List Nat) (hv : ∀ y ∈ v, y < 2 ^ 32) :
    chainOk (cstepsOf v) := by
  have hlenW : (planW v).length = v.length := computeNumBits_length 0 v
  have hfeas := plan_feasible 0 v
  obtain ⟨_, hnb, hslope, _⟩ := hfeas
  have h32 := planW_le_32 v hv
  unfold cstepsOf
  apply chainOk_mkSteps
  intro j hj
  have hcur : (ghostW v).getD j 0 = (planW v).getD j 0 := by
    unfold ghostW
    exact List.getD_append _ _ 0 _ (by omega)
  have hnext : (ghostW v).getD (j+1) 0 =
      (if j + 1 < v.length then (planW v).getD (j+1) 0
       else (planW v).getD (v.length - 1) 0) := by
    unfold ghostW
    by_cases hj1 : j + 1 < v.length
    · rw [if_pos hj1]
      exact List.getD_append _ _ 0 _ (by omega)
    · rw [if_neg hj1]
      have hje : j + 1 = v.length := by omega
      rw [hje, List.getD_append_right _ _ 0 _ (by omega)]
      rw [hlenW, Nat.sub_self]
      show (planW v).getLastD 0 = _
      rw [getLastD_eq_getD _ (List.ne_nil_of_length_pos (by omega)) 0, hlenW]
  have hprevj : 1 ≤ j → (ghostW v).getD (j-1) 0 = (planW v).getD (j-1) 0 := by
    intro hjj
    unfold ghostW
    exact List.getD_append _ _ 0 _ (by omega)
  refine ⟨?_, ?_, ?_, ?_, ?_, ?_⟩
  · show (ghostW v).getD j 0 ≤ 32
    rw [hcur]
    exact h32 j
  · show (ghostW v).getD (j+1) 0 ≤ 32
    rw [hnext]
    by_cases hj1 : j + 1 < v.length
    · rw [if_pos hj1]; exact h32 _
    · rw [if_neg hj1]; exact h32 _
  · show (ghostW v).getD (j+1) 0 ≤ (ghostW v).getD j 0 + 1
    rw [hcur, hnext]
    by_cases hj1 : j + 1 < v.length
    · rw [if_pos hj1]
      exact (hslope j hj1).1
    · rw [if_neg hj1]
      have hje : j = v.length - 1 := by omega
      rw [hje]
      omega
  · show (ghostW v).getD j 0 ≤ (ghostW v).getD (j+1) 0 + 1
    rw [hcur, hnext]
    by_cases hj1 : j + 1 < v.length
    · rw [if_pos hj1]
      exact (hslope j hj1).2
    · rw [if_neg hj1]
      have hje : j = v.length - 1 := by omega
      rw [hje]
      omega
  · show num_bits (v.getD j 0) ≤ (ghostW v).getD j 0
    rw [hcur]
    exact hnb j hj
  · intro htbr
    obtain ⟨ht1, ht2, ht3⟩ := htbr
    simp only [] at ht1 ht2 ht3
    have hPW : ComputeNumBits 0 v = planW v := rfl
    show num_bits (v.getD j 0) = (ghostW v).getD j 0
    rw [hcur] at ht1 ht2 ht3 ⊢
    rw [hnext] at ht2
    apply plan_tbr 0 (if j = 0 then (planW v).headD 0 else (ghostW v).getD (j-1) 0)
      v (Nat.zero_le _) j hj
    · rw [hPW]
      by_cases hj0 : j = 0
      · simpa [hj0] using ht1
      · rw [if_neg hj0] at ht1 ⊢
        rwa [hprevj (by omega)] at ht1
    · intro hj1
      rw [hPW]
      rwa [if_pos hj1] at ht2


/-! ## The full pipeline round trip -/

theorem csteps_length (v : List Nat) : (cstepsOf v).length = v.length := by
  have hlenW : (planW v).length = v.length := computeNumBits_length 0 v
  unfold cstepsOf
  apply mkSteps_length
  unfold ghostW
  rw [List.length_append, hlenW]
  simp

theorem hd_cstepsOf (v : List Nat) (hne : v ≠ []) :
    hdPrev (cstepsOf v) = ((planW v).headD 0 : Int) ∧
    hdCur (cstepsOf v) = ((planW v).headD 0 : Int) := by
  obtain ⟨x, vs, rfl⟩ : ∃ x vs, v = x :: vs := by
    cases v with
    | nil => exact absurd rfl hne
    | cons x vs => exact ⟨x, vs, rfl⟩
  obtain ⟨c, ns, hW⟩ : ∃ c ns, planW (x :: vs) = c :: ns := by
    cases hP : planW (x :: vs) with
    | nil =>
      have hl := computeNumBits_length 0 (x :: vs)
      rw [show ComputeNumBits 0 (x :: vs) = planW (x :: vs) from rfl, hP] at hl
      simp at hl
    | cons c ns => exact ⟨c, ns, rfl⟩
  unfold cstepsOf ghostW
  rw [hW]
  exact ⟨rfl, rfl⟩

/-- End-to-end: encode a nonempty sequence of 32-bit values (fewer than
`2^31` of them), rebuild the decoder from the code bytes, and read them all
back. -/
theorem roundtrip_main (v : List Nat) (hv : ∀ y ∈ v, y < 2 ^ 32) (hne : v ≠ [])
    (hlen : v.length < 2 ^ 31) :
    ∃ (d d' : RUState), mkRUState ((encodeAll v).Code) = some d ∧
      readMany v.length d = some (v, d') := by
  have hlenW : (planW v).length = v.length := computeNumBits_length 0 v
  have hbits := (encodeAll_eq v hv hne).1
  have hw32 : (planW v).headD 0 ≤ 32 := by
    rw [headD_eq_getD]
    exact planW_le_32 v hv 0
  have hdvd : 8 ∣ (encodeAll v).bits.length := by
    rw [hbits]
    exact padBits_length_dvd _
  have hbb : bitsOfBytes ((encodeAll v).Code) = (encodeAll v).bits := by
    unfold UintStream.Code
    exact bitsOfBytes_bytesOfBits _ hdvd
  have hpad : (encodeAll v).bits = preludeBits ((planW v).headD 0) ++
      (NFfull (cstepsOf v) ++ List.replicate
        ((8 - (preludeBits ((planW v).headD 0) ++ NFfull (cstepsOf v)).length % 8) % 8)
        false) := by
    rw [hbits, padBits_append_assoc]
  have hmk := prelude_read ((planW v).headD 0) hw32 ((encodeAll v).Code)
    (NFfull (cstepsOf v) ++ List.replicate
      ((8 - (preludeBits ((planW v).headD 0) ++ NFfull (cstepsOf v)).length % 8) % 8)
      false)
    (by rw [hbb, hpad])
  have hseg : SegBound (2 ^ 31) ((cstepsOf v).map Step.cur) := by
    rw [map_cur_cstepsOf]
    exact SegBound_of_short _ _ (by omega)
  obtain ⟨d', hd'⟩ := decSteps v.length (cstepsOf v) (csteps_length v)
    (chainOk_cstepsOf v hv) hseg
    (List.replicate
      ((8 - (preludeBits ((planW v).headD 0) ++ NFfull (cstepsOf v)).length % 8) % 8)
      false)
  obtain ⟨hhp, hhc⟩ := hd_cstepsOf v hne
  rw [hhp, hhc, map_val_cstepsOf] at hd'
  exact ⟨_, d', hmk, hd'⟩


/-! ## All-zero streams and the zero-run length overflow -/

theorem numBitsFwd_replicate_zero : ∀ n, numBitsFwd 0 (List.replicate n 0) = List.replicate n 0 := by
  intro n
  induction n with
  | zero => rfl
  | succ n ih =>
    rw [List.replicate_succ]
    show (max (num_bits 0) (0 - 1)) :: numBitsFwd (max (num_bits 0) (0 - 1))
        (List.replicate n 0) = _
    rw [num_bits_zero]
    simpa using ih

theorem headD_replicate_zero (k : Nat) : (List.replicate k (0 : Nat)).headD 0 = 0 := by
  cases k with
  | zero => rfl
  | succ k => rw [List.replicate_succ]; rfl

theorem numBitsBwd_replicate_zero : ∀ n, numBitsBwd (List.replicate n 0) = List.replicate n 0 := by
  intro n
  induction n with
  | zero => rfl
  | succ n ih =>
    rw [List.replicate_succ]
    show max 0 ((numBitsBwd (List.replicate n 0)).headD 0 - 1) ::
      numBitsBwd (List.replicate n 0) = _
    rw [ih, headD_replicate_zero]
    simp

theorem planW_replicate_zero (n : Nat) :
    planW (List.replicate n 0) = List.replicate n 0 := by
  unfold planW ComputeNumBits
  rw [numBitsFwd_replicate_zero, numBitsBwd_replicate_zero]

theorem cur_cstepsOf_replicate (n : Nat) :
    ∀ s ∈ cstepsOf (List.replicate n 0), s.cur = 0 := by
  intro s hs
  have hm : s.cur ∈ (cstepsOf (List.replicate n 0)).map Step.cur :=
    List.mem_map_of_mem _ hs
  rw [map_cur_cstepsOf, planW_replicate_zero] at hm
  exact List.eq_of_mem_replicate hm

theorem NFfull_cstepsOf_replicate (n : Nat) (h1 : 1 ≤ n) (h2 : n < 2 ^ 32) :
    NFfull (cstepsOf (List.replicate n 0)) = zrunCode n := by
  have hz := cur_cstepsOf_replicate n
  have hlen : (cstepsOf (List.replicate n 0)).length = n := by
    rw [csteps_length]
    simp
  have h1' := (NFenc_zeros _ hz 0 [] (by omega)).1
  have h2' := (NFenc_zeros _ hz 0 [] (by omega)).2
  rw [List.append_nil, hlen] at h1' h2'
  unfold NFfull
  rw [h1', h2']
  simp only [NFenc, trailingP, Nat.zero_add, List.nil_append]
  rw [if_pos (by omega)]

/-- The first `Read` of any zero-run code, without a bound on the run length:
the reconstructed length and the stored `zero_runlength_` wrap as 32-bit
`int`s. -/
theorem read_header (m : Nat) (h1 : 1 ≤ m) (h2 : m < 2 ^ 32) (p : Int) (bs : List Bool) :
    RUState.Read ⟨zrunCode m ++ bs, p, 0, -1⟩ =
      some (0, ⟨bs, 0, (if wrapI (m : Int) = 1 then 1 else 0),
        wrapI (wrapI (m : Int) - 2)⟩) := by
  have hnb32 : num_bits m ≤ 32 := (num_bits_le_iff 32 m).mpr (by omega)
  have hnb1 : 1 ≤ num_bits m := by
    rcases Nat.eq_zero_or_pos (num_bits m) with h | h
    · rw [num_bits_eq_zero_iff] at h; omega
    · omega
  have hsplit : 2 ^ (num_bits m - 1) + m % 2 ^ (num_bits m - 1) = m :=
    num_bits_split m (by omega)
  have hbits : zrunCode m ++ bs =
      List.replicate (num_bits m - 1) false ++ [true] ++
        (toBits (num_bits m - 1) (m % 2 ^ (num_bits m - 1)) ++ bs) := by
    unfold zrunCode
    rw [toBits_two_pow]
    simp [List.append_assoc]
  have hu : readUnary (zrunCode m ++ bs) 0 =
      some (num_bits m - 1, toBits (num_bits m - 1) (m % 2 ^ (num_bits m - 1)) ++ bs) := by
    rw [hbits]
    exact readUnary_replicate _ (by omega) _
  have hx : readBits (num_bits m - 1)
      (toBits (num_bits m - 1) (m % 2 ^ (num_bits m - 1)) ++ bs) =
      some (m % 2 ^ (num_bits m - 1), bs) := by
    rw [readBits_toBits, Nat.mod_mod_of_dvd _ dvd_rfl]
  have hW : (2 : Int) ^ (num_bits m - 1) + (m : Int) % (2 : Int) ^ (num_bits m - 1) =
      (m : Int) := by
    have hmod : (m : Int) % (2 : Int) ^ (num_bits m - 1) =
        ((m % 2 ^ (num_bits m - 1) : Nat) : Int) := by
      push_cast
      ring
    have hpow : ((2 : Int) ^ (num_bits m - 1)) = ((2 ^ (num_bits m - 1) : Nat) : Int) := by
      push_cast
      ring
    rw [hmod, hpow, ← Nat.cast_add, hsplit]
  simp only [RUState.Read]
  rw [if_neg (by norm_num), if_neg (by norm_num)]
  rw [hu]
  simp only [Option.some_bind, hx, Option.getD_some]
  rw [if_neg (by norm_num)]
  simp [readBits, hW]

theorem read_end_none (j : Nat) (p z : Int) (hz : z < 0) :
    RUState.Read ⟨List.replicate j false, p, 0, z⟩ = none := by
  simp only [RUState.Read]
  rw [if_neg (by norm_num), if_neg (by omega), readUnary_false_none]
  rfl

theorem readMany_none_of_two (m : Nat) (d : RUState) (x : Nat) (d1 : RUState)
    (h1 : d.Read = some (x, d1)) (h2 : d1.Read = none) :
    readMany (m + 2) d = none := by
  rw [show m + 2 = 1 + (1 + m) by omega, readMany_add, readMany_one, h1]
  simp only [Option.map_some', Option.some_bind]
  rw [readMany_add 1 m, readMany_one, h2]
  rfl


theorem wrap_big1 : wrapI ((2 ^ 31 + 2 : Nat) : Int) = 2 - 2 ^ 31 := by
  unfold wrapI
  norm_num

theorem wrap_big2 : wrapI ((2 : Int) - 2 ^ 31 - 2) = -(2 ^ 31) := by
  unfold wrapI
  norm_num

theorem zigzag_lt (s : Int) : zigzag s < 2 ^ 32 := by
  unfold zigzag
  rw [show ((2 : Nat) ^ 32) = 4294967296 from by norm_num]
  omega

theorem chainOk_getD_link : ∀ (l : List Step), chainOk l → ∀ j : Nat, j + 1 < l.length →
    (l.getD j ⟨0, 0, 0, 0⟩).next = (l.getD (j+1) ⟨0, 0, 0, 0⟩).cur := by
  intro l
  induction l with
  | nil => intro _ j hj; simp at hj
  | cons st r ih =>
    intro hch j hj
    cases r with
    | nil => simp at hj
    | cons st2 r2 =>
      cases j with
      | zero => exact (chainOk_link st st2 r2 hch).1
      | succ j2 =>
        refine ih (chainOk_tail _ _ hch) j2 ?_
        simp only [List.length_cons] at hj ⊢
        omega


/-! ## Claim C1: the end-to-end round trip -/

/-- C1 (amended): for every nonempty sequence of unsigned 32-bit values with
fewer than `2^31` entries, writing each value with `UintStream::Write`,
calling `Flush` once, constructing a `ReverseUintStream` on the resulting
`Code()` bytes and calling `Read` N times succeeds and returns exactly the
original values in order. -/
theorem C1_roundtrip (v : List Nat) (hv : ∀ y ∈ v, y < 2 ^ 32) (hne : v ≠ [])
    (hlen : v.length < 2 ^ 31) :
    ∃ (d d' : RUState), mkRUState ((encodeAll v).Code) = some d ∧
      readMany v.length d = some (v, d') :=
  roundtrip_main v hv hne hlen

/-- C1 (witness): the round trip at the concrete input `[5]`. -/
theorem C1_roundtrip_witness :
    ((∀ y ∈ [5], y < 2 ^ 32) ∧ ([5] : List Nat) ≠ [] ∧ ([5] : List Nat).length < 2 ^ 31) ∧
    ∃ (d d' : RUState), mkRUState ((encodeAll [5]).Code) = some d ∧
      readMany ([5] : List Nat).length d = some ([5], d') :=
  ⟨⟨by decide, by decide, by decide⟩,
    C1_roundtrip [5] (by decide) (by decide) (by decide)⟩

/-- C1 (counterexample): on the all-zero input of length `2^31 + 2` — 32-bit
values, `N ≥ 1` — the decoder fails: the reconstructed zero-run length
overflows the 32-bit `int`, `zero_runlength_` goes negative, and the second
`Read` returns false, so the stream does not decode back to the input. -/
theorem C1_counterexample :
    ∃ d : RUState,
      mkRUState ((encodeAll (List.replicate (2 ^ 31 + 2) 0)).Code) = some d ∧
      readMany (List.replicate (2 ^ 31 + 2) (0 : Nat)).length d = none := by
  have hv : ∀ y ∈ List.replicate (2 ^ 31 + 2) (0 : Nat), y < 2 ^ 32 := by
    intro y hy
    rw [List.eq_of_mem_replicate hy]
    norm_num
  have hne : List.replicate (2 ^ 31 + 2) (0 : Nat) ≠ [] := by
    apply List.ne_nil_of_length_pos
    rw [List.length_replicate]
    norm_num
  have hbits := (encodeAll_eq _ hv hne).1
  rw [NFfull_cstepsOf_replicate _ (by norm_num) (by norm_num), planW_replicate_zero,
    headD_replicate_zero] at hbits
  have hdvd : 8 ∣ (encodeAll (List.replicate (2 ^ 31 + 2) 0)).bits.length := by
    rw [hbits]
    exact padBits_length_dvd _
  have hbb : bitsOfBytes ((encodeAll (List.replicate (2 ^ 31 + 2) 0)).Code) =
      (encodeAll (List.replicate (2 ^ 31 + 2) 0)).bits := by
    unfold UintStream.Code
    exact bitsOfBytes_bytesOfBits _ hdvd
  set P := List.replicate
      ((8 - (preludeBits 0 ++ zrunCode (2 ^ 31 + 2)).length % 8) % 8) false with hP
  have hmk := prelude_read 0 (by norm_num) ((encodeAll (List.replicate (2 ^ 31 + 2) 0)).Code)
    (zrunCode (2 ^ 31 + 2) ++ P)
    (by rw [hbb, hbits, padBits_append_assoc, hP])
  have hrd1 := read_header (2 ^ 31 + 2) (by norm_num) (by norm_num) 0 P
  rw [wrap_big1, if_neg (by norm_num), wrap_big2] at hrd1
  have hrd2 := read_end_none ((8 - (preludeBits 0 ++ zrunCode (2 ^ 31 + 2)).length % 8) % 8)
    0 (-(2 ^ 31)) (by norm_num)
  rw [← hP] at hrd2
  refine ⟨_, hmk, ?_⟩
  rw [List.length_replicate]
  exact readMany_none_of_two (2 ^ 31) _ 0 _ hrd1 hrd2


/-! ## Claim C6: zero-run codes -/

/-- C6 (amended): for a pending run of `k` zeros with `1 ≤ k < 2^31`,
`FlushPendingZeros` emits exactly the zero-run code — `h+1` bits holding
`1 <<< h` then `h` bits holding `k % 2^h`, `h = nb(k) - 1`, `2h+1` bits in
all — and the decoder reads it back, reconstructing the run length and
consuming exactly `k` zero-width symbols. -/
theorem C6_zero_run_roundtrip (k : Nat) (h1 : 1 ≤ k) (h2 : k < 2 ^ 31) (p : Int)
    (bs : List Bool) (s : UintStream) (hs : s.num_pending_zeros = k) :
    FlushPendingZeros s = { s with
      bits := s.bits ++ (toBits (num_bits k - 1 + 1) (2 ^ (num_bits k - 1)) ++
        toBits (num_bits k - 1) (k % 2 ^ (num_bits k - 1)))
      num_pending_zeros := 0 } ∧
    (zrunCode k).length = 2 * (num_bits k - 1) + 1 ∧
    readMany k ⟨zrunCode k ++ bs, p, 0, -1⟩ =
      some (List.replicate k 0, ⟨bs, 0, 1, -1⟩) := by
  refine ⟨?_, zrunCode_length k, readRun k h1 h2 p bs⟩
  rw [FlushPendingZeros_eq, hs]
  rfl

/-- C6 (witness): the zero-run code for `k = 3` (`h = 1`, three bits `0,1,1`)
on a stream with three pending zeros, decoded back into three zeros. -/
theorem C6_zero_run_roundtrip_witness :
    (1 ≤ 3 ∧ 3 < 2 ^ 31 ∧
      (⟨[], 0, [], false, false, 3, []⟩ : UintStream).num_pending_zeros = 3) ∧
    (FlushPendingZeros ⟨[], 0, [], false, false, 3, []⟩ =
      { (⟨[], 0, [], false, false, 3, []⟩ : UintStream) with
        bits := [] ++ (toBits (num_bits 3 - 1 + 1) (2 ^ (num_bits 3 - 1)) ++
          toBits (num_bits 3 - 1) (3 % 2 ^ (num_bits 3 - 1)))
        num_pending_zeros := 0 } ∧
      (zrunCode 3).length = 2 * (num_bits 3 - 1) + 1 ∧
      readMany 3 ⟨zrunCode 3 ++ [], 0, 0, -1⟩ =
        some (List.replicate 3 0, ⟨[], 0, 1, -1⟩)) :=
  ⟨⟨by decide, by decide, by decide⟩,
    C6_zero_run_roundtrip 3 (by decide) (by decide) 0 []
      ⟨[], 0, [], false, false, 3, []⟩ (by decide)⟩

/-- C6 (counterexample): for the run length `k = 2^31 + 2` the decoder's
reconstruction `(1 <<< h) + x` overflows `int`; `zero_runlength_` becomes
negative and the second `Read` fails instead of consuming the second of the
`k` zero-width symbols. -/
theorem C6_counterexample :
    readMany 2 ⟨zrunCode (2 ^ 31 + 2), 0, 0, -1⟩ = none := by
  have hrd1 := read_header (2 ^ 31 + 2) (by norm_num) (by norm_num) 0 []
  rw [wrap_big1, if_neg (by norm_num), wrap_big2, List.append_nil] at hrd1
  have hrd2 := read_end_none 0 0 (-(2 ^ 31)) (by norm_num)
  rw [show List.replicate 0 false = ([] : List Bool) from rfl] at hrd2
  exact readMany_none_of_two 0 _ 0 _ hrd1 hrd2

/-! ## Claim C7: the width prelude -/

/-- C7: for every nonempty input the encoded stream starts with the prelude —
`w[0]` in 5 bits when `w[0] < 31`, otherwise 31 in 5 bits plus one extra bit
holding `w[0] - 31` — and the `ReverseUintStream` constructor reads exactly
those bits back, seeding `prev_num_bits_ = cur_num_bits_ = w[0]`. -/
theorem C7_prelude_roundtrip (v : List Nat) (hv : ∀ y ∈ v, y < 2 ^ 32) (hne : v ≠ []) :
    ∃ rest : List Bool,
      bitsOfBytes ((encodeAll v).Code) =
        (toBits 5 (if (planW v).headD 0 = 32 then 31 else (planW v).headD 0) ++
          (if 31 ≤ (planW v).headD 0 then toBits 1 ((planW v).headD 0 - 31) else [])) ++
          rest ∧
      mkRUState ((encodeAll v).Code) =
        some ⟨rest, ((planW v).headD 0 : Int), ((planW v).headD 0 : Int), -1⟩ := by
  have hbits := (encodeAll_eq v hv hne).1
  have hw32 : (planW v).headD 0 ≤ 32 := by
    rw [headD_eq_getD]
    exact planW_le_32 v hv 0
  have hdvd : 8 ∣ (encodeAll v).bits.length := by
    rw [hbits]
    exact padBits_length_dvd _
  have hbb : bitsOfBytes ((encodeAll v).Code) = (encodeAll v).bits := by
    unfold UintStream.Code
    exact bitsOfBytes_bytesOfBits _ hdvd
  refine ⟨NFfull (cstepsOf v) ++ List.replicate
      ((8 - (preludeBits ((planW v).headD 0) ++ NFfull (cstepsOf v)).length % 8) % 8)
      false, ?_, ?_⟩
  · rw [hbb, hbits, padBits_append_assoc]
    rfl
  · exact prelude_read ((planW v).headD 0) hw32 _ _
      (by rw [hbb, hbits, padBits_append_assoc])

/-- C7 (witness): the prelude round trip at the concrete input `[5]`. -/
theorem C7_prelude_roundtrip_witness :
    ((∀ y ∈ [5], y < 2 ^ 32) ∧ ([5] : List Nat) ≠ []) ∧
    ∃ rest : List Bool,
      bitsOfBytes ((encodeAll [5]).Code) =
        (toBits 5 (if (planW [5]).headD 0 = 32 then 31 else (planW [5]).headD 0) ++
          (if 31 ≤ (planW [5]).headD 0 then toBits 1 ((planW [5]).headD 0 - 31) else [])) ++
          rest ∧
      mkRUState ((encodeAll [5]).Code) =
        some ⟨rest, ((planW [5]).headD 0 : Int), ((planW [5]).headD 0 : Int), -1⟩ :=
  ⟨⟨by decide, by decide⟩, C7_prelude_roundtrip [5] (by decide) (by decide)⟩

/-! ## Claim C8: the signed zig-zag round trip -/

/-- C8: for every signed 32-bit `s`, the zig-zag image is an unsigned 32-bit
value, the decoding map inverts it, and the full signed pipeline through
`IntStream::Write` and `ReverseIntStream::Read` returns `s`. -/
theorem C8_zigzag_roundtrip (s : Int) (h1 : -(2 ^ 31) ≤ s) (h2 : s < 2 ^ 31) :
    zigzag s < 2 ^ 32 ∧ unzigzag (zigzag s) = s ∧
    ∃ (d d' : RUState), mkRUState ((encodeAllSigned [s]).Code) = some d ∧
      readManySigned 1 d = some ([s], d') := by
  refine ⟨zigzag_lt s, (zigzag_unzigzag s h1 h2).2, ?_⟩
  obtain ⟨d, d', hmk, hrd⟩ := roundtrip_main [zigzag s]
    (by intro y hy; simp at hy; rw [hy]; exact zigzag_lt s)
    (by simp) (by norm_num)
  refine ⟨d, d', hmk, ?_⟩
  unfold readManySigned
  rw [show ([zigzag s] : List Nat).length = 1 from rfl] at hrd
  rw [hrd]
  simp [(zigzag_unzigzag s h1 h2).2]

/-- C8 (witness): the signed round trip at `s = -5` (zig-zag image 9). -/
theorem C8_zigzag_roundtrip_witness :
    (-(2 ^ 31) ≤ (-5 : Int) ∧ (-5 : Int) < 2 ^ 31) ∧
    (zigzag (-5) < 2 ^ 32 ∧ unzigzag (zigzag (-5)) = -5 ∧
      ∃ (d d' : RUState), mkRUState ((encodeAllSigned [-5]).Code) = some d ∧
        readManySigned 1 d = some ([-5], d')) :=
  ⟨⟨by decide, by decide⟩, C8_zigzag_roundtrip (-5) (by decide) (by decide)⟩

/-! ## Claim C10: width consistency across flush boundaries -/

/-- C10: for inputs long enough to trigger mid-stream partial flushes, the
widths the encoder actually uses agree with the single global plan: the trace
of `WriteCode` calls covers every symbol once, its widths are the planned
widths and its values the input values, and each step's announced `next`
width equals the width the following symbol is encoded with — also when the
two symbols are emitted by different `FlushSome` calls. -/
theorem C10_flush_boundary (v : List Nat) (hv : ∀ y ∈ v, y < 2 ^ 32)
    (hlong : 64 ≤ v.length) :
    (encodeAll v).trace.length = v.length ∧
    (encodeAll v).trace.map Step.cur = planW v ∧
    (encodeAll v).trace.map Step.val = v ∧
    ∀ j : Nat, j + 1 < v.length →
      ((encodeAll v).trace.getD j ⟨0, 0, 0, 0⟩).next =
        ((encodeAll v).trace.getD (j+1) ⟨0, 0, 0, 0⟩).cur := by
  have hne : v ≠ [] := List.ne_nil_of_length_pos (by omega)
  have htr := (encodeAll_eq v hv hne).2
  rw [htr]
  refine ⟨csteps_length v, map_cur_cstepsOf v, map_val_cstepsOf v, ?_⟩
  intro j hj
  exact chainOk_getD_link (cstepsOf v) (chainOk_cstepsOf v hv) j
    (by rw [csteps_length]; omega)

/-- C10 (witness): the theorem at the 65-symbol input `5, 5, …, 5`, which
triggers one mid-stream partial flush. -/
theorem C10_flush_boundary_witness :
    ((∀ y ∈ List.replicate 65 5, y < 2 ^ 32) ∧ 64 ≤ (List.replicate 65 (5 : Nat)).length) ∧
    ((encodeAll (List.replicate 65 5)).trace.length = (List.replicate 65 (5 : Nat)).length ∧
      (encodeAll (List.replicate 65 5)).trace.map Step.cur = planW (List.replicate 65 5) ∧
      (encodeAll (List.replicate 65 5)).trace.map Step.val = List.replicate 65 5 ∧
      ∀ j : Nat, j + 1 < (List.replicate 65 (5 : Nat)).length →
        ((encodeAll (List.replicate 65 5)).trace.getD j ⟨0, 0, 0, 0⟩).next =
          ((encodeAll (List.replicate 65 5)).trace.getD (j+1) ⟨0, 0, 0, 0⟩).cur) :=
  ⟨⟨by decide, by decide⟩,
    C10_flush_boundary (List.replicate 65 5) (by decide) (by decide)⟩

end Lilcom
